import Mathlib

/-!
Verification of the `mdcrypt` repository: a shallow embedding of the
Hamming error-correction codec (`src/algorithms/hamming.rs`), the `Key`
byte-container (`src/key.rs`) and the Vigenère cipher
(`src/algorithms/vigener.rs`), together with proofs of the specified
properties.

Modelling conventions:
* Rust `usize`/`u8` values are modelled as `Nat`; wrapping byte arithmetic
  is written with an explicit `% 256`.
* A Rust operation that can panic (`unwrap`, out-of-range `BitVec::set`,
  division by zero / `usize` underflow) is modelled in the `Option` monad:
  `none` models a panic.
* Byte sequences are `List Nat`, bit sequences are `List Bool`.
-/

/-- Model of `u32::count_ones` on a `Nat`: the number of set bits.  Every
set bit of `n` has index `< n` (since `i < 2 ^ i ≤ n`), so filtering the
indices below `n` counts them all. -/
def countOnes (n : Nat) : Nat :=
  ((List.range n).filter (fun i => n.testBit i)).length

/-- Bits of one byte, most-significant bit first: the source reverses the
byte with `u8::reverse_bits` and then reads bits `0..8` of the reversed
byte, so position `i` of the result is bit `7 - i` of the byte. -/
def byteBits (x : Nat) : List Bool :=
  (List.range 8).map (fun i => x.testBit (7 - i))

/-- The size-field bits: `(0..size_field_bits).rev().map(|i| (len & (1 << i)) != 0)`,
i.e. the low `l` bits of `len`, most-significant first.  Its shifts
`1 << i` have `i < size_field_bits`; the encoder builds this iterator
only after evaluating `1usize << size_field_bits` in its capacity check,
so the encoder reaches it only with `size_field_bits ≤ 63` (guarded in
`try_encrypt`), where every `1 << i` is the exact `2 ^ i` modelled by
`Nat.testBit`. -/
def sizeFieldBits (l len : Nat) : List Bool :=
  (List.range l).reverse.map (fun i => len.testBit i)

/-- Big-endian value of a bit list: `foldl (fun a b => 2*a + b) 0`. -/
def bitsToNat (bits : List Bool) : Nat :=
  bits.foldl (fun a bb => 2 * a + bb.toNat) 0

/-- One byte from at most 8 bits, most-significant bit first, zero-padded
on the right (the padding `BitVec::to_bytes` applies to a final partial
byte). -/
def bitsToByte8 (chunk : List Bool) : Nat :=
  bitsToNat (chunk ++ List.replicate (8 - chunk.length) false)

/-- Model of `bit_vec::BitVec::to_bytes`: pack a bit sequence into bytes,
most-significant bit first within each byte, the final byte zero-padded if
the bit count is not a multiple of 8. -/
def bitsToBytes : List Bool → List Nat
  | [] => []
  | b0 :: b1 :: b2 :: b3 :: b4 :: b5 :: b6 :: b7 :: rest =>
      bitsToByte8 [b0, b1, b2, b3, b4, b5, b6, b7] :: bitsToBytes rest
  | short => [bitsToByte8 short]

/-- Model of `Iterator::reduce`: `none` on an empty iterator (whose
`unwrap` would panic), otherwise the left fold starting from the first
element. -/
def reduce1 (f : Bool → Bool → Bool) : List Bool → Option Bool
  | [] => none
  | x :: xs => some (xs.foldl f x)

/-- XOR of all elements of a list. -/
def xorFold (l : List Bool) : Bool := l.foldl xor false

/-- Model of `BitVec::set`, which panics when the index is out of range. -/
def setChecked (blk : List Bool) (i : Nat) (x : Bool) : Option (List Bool) :=
  if i < blk.length then some (blk.set i x) else none

/-- The positions the source XORs together for parity mask `mask`:
`(0..blk_bits_total).filter(|b| (b & mask) == mask)`. -/
def eccPositions (N mask : Nat) : List Nat :=
  (List.range N).filter (fun q => q &&& mask == mask)

/-- One parity bit: `block.get(b).unwrap()` for every position in the
mask's group, reduced with XOR (`reduce(|parity, bit| parity ^ bit).unwrap()`). -/
def eccBitAt (N : Nat) (blk : List Bool) (mask : Nat) : Option Bool :=
  ((eccPositions N mask).mapM (fun q => blk.get? q)).bind (reduce1 xor)

/-- The parity-setting loop of `try_encrypt`:
`for i in 0..blk_log_size { let mask = 1 << i; block.set(mask, ecc_bit) }`. -/
def setEccBits (b N : Nat) (blk : List Bool) : Option (List Bool) :=
  (List.range b).foldlM
    (fun cur i => (eccBitAt N cur (1 <<< i)).bind (fun bit => setChecked cur (1 <<< i) bit))
    blk

/-- The final statement of the block loop:
`block.set(0, block.iter().reduce(|parity, bit| parity ^ bit).unwrap())`. -/
def setGlobalParity (blk : List Bool) : Option (List Bool) :=
  (reduce1 xor blk).bind (fun g => setChecked blk 0 g)

/-- The block-filling loop: push `steps` bits starting at position `idx`;
a position whose index has at most one set bit receives `false` (a parity
placeholder), any other position receives the next chunk bit
(`next().unwrap_or(false)`). -/
def fillBlockFrom (idx : Nat) : Nat → List Bool → List Bool
  | 0, _ => []
  | steps + 1, chunk =>
      if countOnes idx ≤ 1 then false :: fillBlockFrom (idx + 1) steps chunk
      else
        match chunk with
        | [] => false :: fillBlockFrom (idx + 1) steps []
        | x :: xs => x :: fillBlockFrom (idx + 1) steps xs

/-- One full block of `try_encrypt`: fill positions `0..N` from the chunk,
set the power-of-two parity bits, then the global parity bit at position 0.
The chunk passed in is the block's `take(blk_bits_data)` slice of the bit
stream; a block has exactly `blk_bits_data` non-parity positions, so the
slice is consumed completely. -/
def buildBlock (b N : Nat) (chunk : List Bool) : Option (List Bool) :=
  (setEccBits b N (fillBlockFrom 0 N chunk)).bind setGlobalParity

/-- The block loop of `try_encrypt`: each block takes the next
`blk_bits_data` bits of the stream. -/
def buildBlocks (b N d : Nat) : Nat → List Bool → Option (List (List Bool))
  | 0, _ => some []
  | count + 1, bits =>
      (buildBlock b N (bits.take d)).bind (fun blk =>
        Option.map (fun rest => blk :: rest) (buildBlocks b N d count (bits.drop d)))

/-- The serialization loop of `try_encrypt`:
`for bit_idx in 0..blk_bits_total { for block in &blocks { result.push(block.get(bit_idx).unwrap()) } }`. -/
def interleave (N : Nat) (blocks : List (List Bool)) : Option (List Bool) :=
  ((List.range N).mapM (fun i => blocks.mapM (fun blk : List Bool => blk.get? i))).map List.flatten

/-- The `HammingECC` struct: `blk_log_size` and `size_field_bits` are `u8`
fields, modelled as `Nat`. -/
structure HammingECC where
  blk_log_size : Nat
  size_field_bits : Nat
deriving DecidableEq

/-- Model of `HammingECC::new`: `Some` exactly when
`blk_log_size >= 3 && size_field_bits >= 2`. -/
def HammingECC.new (blk_log_size size_field_bits : Nat) : Option HammingECC :=
  match decide (blk_log_size ≥ 3 ∧ size_field_bits ≥ 2) with
  | true => some ⟨blk_log_size, size_field_bits⟩
  | false => none

/-- The error returned by `try_encrypt` on oversized input: the source
builds an `io::Error` whose message carries the maximum allowed byte count
`(1 << size_field_bits) - 1` and the actual byte count. -/
structure EncodeError where
  maxAllowed : Nat
  actual : Nat
deriving DecidableEq

/-- Derived quantity `blk_bits_total = 1usize << self.blk_log_size`, the
value of the shift when its amount fits a 64-bit `usize`
(`blk_log_size ≤ 63`).  `try_encrypt` consults this quantity only behind
its explicit shift-overflow guard, so a `blk_log_size ≥ 64` — where the
real shift panics (checked build) or is masked (unchecked build) — never
reaches it; the spec-modelled decoder uses the spec's own
`block_bits_total = 2 ^ block_log_size`, which agrees with this value on
that guarded domain. -/
def HammingECC.blkBitsTotal (self : HammingECC) : Nat := 1 <<< self.blk_log_size

/-- Derived quantity `blk_bits_ecc = 1usize + self.blk_log_size`. -/
def HammingECC.blkBitsEcc (self : HammingECC) : Nat := 1 + self.blk_log_size

/-- Derived quantity `blk_bits_data = blk_bits_total - blk_bits_ecc`. -/
def HammingECC.blkBitsData (self : HammingECC) : Nat :=
  self.blkBitsTotal - self.blkBitsEcc

/-- The block count
`(data_bit_len + size_field_bits + blk_bits_data - 1) / blk_bits_data`. -/
def HammingECC.blkCount (self : HammingECC) (data_bit_len : Nat) : Nat :=
  (data_bit_len + self.size_field_bits + self.blkBitsData - 1) / self.blkBitsData

/-- The logical bit stream to encode: the size-field bits followed by the
data bits (`sz_field_bit_iter.chain(data_bit_iter)`). -/
def HammingECC.encodeStream (self : HammingECC) (data : List Nat) : List Bool :=
  sizeFieldBits self.size_field_bits data.length ++ (data.map byteBits).flatten

/-- Model of `HammingECC::try_encrypt`.  `none` models a panic.  The two
`usize` shifts by a `u8` amount are guarded explicitly for a 64-bit
target: `1usize << size_field_bits` (the capacity check) and
`1usize << blk_log_size` (the block size) overflow the shift amount when
it is 64 or more, which panics in a checked (debug) build before anything
else happens; an unchecked (release) build masks the shift amount
instead, after which the configurations with `blk_log_size ≥ 64` still
panic inside the first block's parity loop (`reduce` of an empty group,
since the masked block size is smaller than the parity scaffolding), so
no configuration rejected by these guards behaves like the unbounded
value `2 ^ n`.  Behind the guards both shifts are exact.  The remaining
panic sources — `usize` subtraction underflow and division by zero, which
surface as `blkBitsData = 0`, and the `unwrap`s inside the block loop —
are modelled through the `Option` monad as before.  An oversized message
returns the `io::Error` of the source, modelled as `EncodeError`. -/
def HammingECC.try_encrypt (self : HammingECC) (data : List Nat) :
    Option (Except EncodeError (List Nat)) :=
  let data_byte_len := data.length
  if self.size_field_bits ≥ 64 then none
  else if data_byte_len ≥ 1 <<< self.size_field_bits then
    some (Except.error ⟨(1 <<< self.size_field_bits) - 1, data_byte_len⟩)
  else
    if self.blk_log_size ≥ 64 then none
    else if self.blkBitsData = 0 then none
    else
      (buildBlocks self.blk_log_size self.blkBitsTotal self.blkBitsData
          (self.blkCount (data_byte_len * 8)) (self.encodeStream data)).bind
        (fun blocks =>
          Option.map (fun flat => Except.ok (bitsToBytes flat))
            (interleave self.blkBitsTotal blocks))

/-- Errors of the decode direction, from the spec's taxonomy:
`Malformed`, `UncorrectableBlock { index }` and `Truncated`. -/
inductive DecodeError where
  | Malformed : DecodeError
  | UncorrectableBlock : Nat → DecodeError
  | Truncated : DecodeError
deriving DecidableEq

/-- Modelled from the spec: the parity check of decode step 3 computes,
for a parity position `p`, "the XOR of all bits at positions `b` with
`(b & p) == p`". -/
def groupXor (blk : List Bool) (p : Nat) : Bool :=
  xorFold ((eccPositions blk.length p).map (fun q => blk.getD q false))

/-- Modelled from the spec: the error-location syndrome of decode step 3 —
the composition (bitwise OR) of every power-of-two position whose parity
group XORs to a non-zero value. -/
def syndromeOf (b : Nat) (blk : List Bool) : Nat :=
  (List.range b).foldl
    (fun e i => if groupXor blk (1 <<< i) then e ||| (1 <<< i) else e) 0

/-- Modelled from the spec: the per-block decision table of decode step 3.
`overall parity` is the XOR of all bits in the block; with a clean overall
parity a non-zero syndrome is a detected double error, with a mismatched
overall parity the syndrome locates the single corrupted bit (position 0
when the syndrome is zero, since then the global parity bit itself is
corrupted).  A syndrome outside the block range cannot arise (it is an OR
of power-of-two positions below the block size) and is reported as
uncorrectable. -/
def correctBlock (b : Nat) (blockIndex : Nat) (blk : List Bool) :
    Except DecodeError (List Bool) :=
  let e := syndromeOf b blk
  let overall := xorFold blk
  if overall = false then
    if e = 0 then Except.ok blk
    else Except.error (DecodeError.UncorrectableBlock blockIndex)
  else
    if e = 0 then Except.ok (blk.set 0 (!(blk.getD 0 false)))
    else if e < blk.length then Except.ok (blk.set e (!(blk.getD e false)))
    else Except.error (DecodeError.UncorrectableBlock blockIndex)

/-- Modelled from the spec: decode step 4 extracts the payload bits of a
corrected block — every position that is neither position 0 nor a
power of two, i.e. whose index has at least two set bits, in increasing
position order. -/
def extractPayload (blk : List Bool) : List Bool :=
  (((List.range blk.length).filter (fun q => decide (2 ≤ countOnes q))).map
    (fun q => blk.getD q false))

/-- Modelled from the spec: `decode` for `HammingECC`, the symmetric
counterpart that the source documents (`TryDecrypt`) but does not
implement.  Steps follow §4.1 of the design: (1) unpack bytes into a flat
bit sequence, most-significant bit first, and require the bit length to be
a multiple of `block_bits_total`, else `Malformed`; (2) de-interleave (bit
`i` of block `j` sits at flat position `i * block_count + j`); (3) verify
and correct every block independently via `correctBlock`; (4) concatenate
the payload bits of all blocks; (5) read the first `length_field_bits`
payload bits as the declared byte length `L` (most-significant bit first),
require at least `L * 8` further payload bits, else `Truncated`, and
(6) return the first `L` bytes formed from those bits, most-significant
bit first. -/
def HammingECC.try_decrypt (self : HammingECC) (encoded : List Nat) :
    Except DecodeError (List Nat) :=
  let N := self.blkBitsTotal
  let bits := (encoded.map byteBits).flatten
  if bits.length % N ≠ 0 then Except.error DecodeError.Malformed
  else
    let count := bits.length / N
    let blocks := (List.range count).map
      (fun j => (List.range N).map (fun i => bits.getD (i * count + j) false))
    (blocks.enum.mapM (fun p => correctBlock self.blk_log_size p.1 p.2)).bind
      (fun corrected =>
        let payload := (corrected.map extractPayload).flatten
        let L := bitsToNat (payload.take self.size_field_bits)
        let rest := payload.drop self.size_field_bits
        if rest.length < L * 8 then Except.error DecodeError.Truncated
        else Except.ok ((List.range L).map (fun k => bitsToNat ((rest.drop (8 * k)).take 8))))

/-- The `Key` struct: a byte container. -/
structure Key where
  data : List Nat
deriving DecidableEq

/-- Model of `Key::new`: asserts that the vector is non-empty (`none`
models the panic of the failed assertion). -/
def Key.new (data : List Nat) : Option Key :=
  if data.length > 0 then some ⟨data⟩ else none

/-- Model of `Key::len`. -/
def Key.len (self : Key) : Nat := self.data.length

/-- Model of `<Key as FromIterator<u8>>::from_iter`: collect and call
`Key::new` (which panics on an empty iterator). -/
def Key.from_iter (iter : List Nat) : Option Key := Key.new iter

/-- Model of `Vec::with_capacity`: reserves capacity but creates a vector
of length zero. -/
def vecWithCapacity (cap : Nat) : List Nat :=
  List.replicate 0 cap

/-- Model of `<[u8]>::fill`: overwrite every existing element. -/
def sliceFill (slice : List Nat) (v : Nat) : List Nat :=
  slice.map (fun _ => v)

/-- Model of `rand::Rng::fill_bytes` on a slice: replace each existing
element with the next byte of the generator (a no-op on an empty slice).
The generator is modelled as a stream of bytes indexed by position. -/
def rngFillBytes (rng : Nat → Nat) (slice : List Nat) : List Nat :=
  (List.range slice.length).map (fun i => rng i % 256)

/-- Model of `Key::random`: `Vec::with_capacity(key_len)` (length 0!),
`fill(0)`, then `rng.fill_bytes` on the slice of the vector, and the
struct is built directly without the `Key::new` assertion. -/
def Key.random (key_len : Nat) (rng : Nat → Nat) : Key :=
  let data := vecWithCapacity key_len
  let data := sliceFill data 0
  ⟨rngFillBytes rng data⟩

/-- The `Vigener` struct holding its key. -/
structure Vigener where
  key : Key

/-- Model of `Vigener::new`. -/
def Vigener.new (key : Key) : Vigener := ⟨key⟩

/-- The first `n` bytes of `key.iter().cycle()`: the zip of a length-`n`
sequence with the cycled key pairs position `i` with `key[i % len]`. -/
def cycleTake (key : List Nat) (n : Nat) : List Nat :=
  (List.range n).map (fun i => key.getD (i % key.length) 0)

/-- Model of `<Vigener as Encrypt>::encrypt`: zip the data with the
cycled key and add byte-wise with wrapping (`u8::wrapping_add`, i.e.
mod 256). -/
def Vigener.encrypt (self : Vigener) (data : List Nat) : List Nat :=
  List.zipWith (fun byte mask => (byte + mask) % 256)
    data (cycleTake self.key.data data.length)

/-- Model of `<Vigener as Decrypt>::decrypt`: zip the encrypted data with
the cycled key and subtract byte-wise with wrapping (`u8::wrapping_sub`,
i.e. mod 256). -/
def Vigener.decrypt (self : Vigener) (data : List Nat) : List Nat :=
  List.zipWith (fun byte mask => (byte + 256 - mask % 256) % 256)
    data (cycleTake self.key.data data.length)

/-- Number of data (non-parity) positions below `k`: positions whose index
has at least two set bits. -/
def dataCount (k : Nat) : Nat :=
  ((List.range k).filter (fun q => decide (2 ≤ countOnes q))).length

/-! ### General list and bit lemmas -/

theorem getD_map_range {α : Type} (f : Nat → α) (n q : Nat) (d : α) (h : q < n) :
    (((List.range n).map f).getD q d) = f q := by
  rw [List.getD_eq_getElem?_getD, List.getElem?_map, List.getElem?_range h]
  rfl

theorem map_getD_range_len {α : Type} (l : List α) (d : α) :
    (List.range l.length).map (fun i => l.getD i d) = l := by
  apply List.ext_getElem
  · simp
  · intro i h1 h2
    simp only [List.getElem_map, List.getElem_range]
    rw [List.getD_eq_getElem?_getD]
    simp only [List.length_map, List.length_range] at h1
    rw [List.getElem?_eq_getElem (by simpa using h1)]
    rfl

theorem map_getD_range_take {α : Type} (l : List α) (d : α) (k : Nat) (h : k ≤ l.length) :
    (List.range k).map (fun i => l.getD i d) = l.take k := by
  apply List.ext_getElem
  · simp [Nat.min_eq_left h]
  · intro i h1 h2
    simp only [List.getElem_map, List.getElem_range, List.getElem_take]
    simp only [List.length_map, List.length_range] at h1
    rw [List.getD_eq_getElem?_getD, List.getElem?_eq_getElem (by omega)]
    rfl

theorem length_flatten_uniform {α : Type} (rows : List (List α)) (c : Nat)
    (h : ∀ r ∈ rows, r.length = c) : rows.flatten.length = rows.length * c := by
  induction rows with
  | nil => simp
  | cons r rest ih =>
    simp only [List.flatten_cons, List.length_append, List.length_cons]
    rw [h r (by simp), ih (fun r hr => h r (by simp [hr]))]
    ring

theorem getD_flatten_uniform {α : Type} (rows : List (List α)) (c : Nat) (d : α)
    (h : ∀ r ∈ rows, r.length = c) :
    ∀ i j, i < rows.length → j < c →
      rows.flatten.getD (i * c + j) d = (rows.getD i []).getD j d := by
  induction rows with
  | nil => intro i j hi _; simp at hi
  | cons r rest ih =>
    intro i j hi hj
    have hr : r.length = c := h r (by simp)
    match i with
    | 0 =>
      simp only [List.flatten_cons, Nat.zero_mul, Nat.zero_add]
      rw [List.getD_eq_getElem?_getD, List.getElem?_append_left (by omega)]
      simp [List.getD_eq_getElem?_getD]
    | i' + 1 =>
      simp only [List.flatten_cons]
      rw [List.getD_eq_getElem?_getD, List.getElem?_append_right (by nlinarith)]
      have e1 : (i' + 1) * c + j - r.length = i' * c + j := by
        rw [hr]; ring_nf; omega
      rw [e1]
      have := ih (fun r hr => h r (by simp [hr])) i' j (by simpa using hi) hj
      rw [List.getD_eq_getElem?_getD] at this
      simpa using this

theorem foldl_xor_acc (l : List Bool) (a : Bool) : l.foldl xor a = xor a (xorFold l) := by
  induction l generalizing a with
  | nil => simp [xorFold]
  | cons x xs ih =>
    simp only [List.foldl_cons, xorFold]
    rw [ih (xor a x), ih (xor false x)]
    cases a <;> cases x <;> simp

theorem xorFold_cons (x : Bool) (l : List Bool) : xorFold (x :: l) = xor x (xorFold l) := by
  simp only [xorFold, List.foldl_cons]
  rw [foldl_xor_acc]
  cases x <;> simp [xorFold]

theorem xorFold_perm (l1 l2 : List Bool) (h : l1.Perm l2) : xorFold l1 = xorFold l2 := by
  unfold xorFold
  exact h.foldl_eq' (fun x _ y _ b => by cases x <;> cases y <;> cases b <;> rfl) false

theorem reduce1_xor_eq (l : List Bool) (h : l ≠ []) : reduce1 xor l = some (xorFold l) := by
  match l with
  | [] => exact absurd rfl h
  | x :: xs =>
    simp only [reduce1, xorFold, List.foldl_cons, Option.some.injEq]
    rw [foldl_xor_acc, foldl_xor_acc]
    cases x <;> simp

theorem bitsToNat_append (l1 l2 : List Bool) :
    bitsToNat (l1 ++ l2) = bitsToNat l1 * 2 ^ l2.length + bitsToNat l2 := by
  induction l2 using List.reverseRecOn with
  | nil => simp [bitsToNat]
  | append_singleton xs b ih =>
    rw [← List.append_assoc]
    simp only [bitsToNat, List.foldl_append, List.foldl_cons, List.foldl_nil] at ih ⊢
    rw [ih]
    simp [List.length_append, Nat.pow_succ]
    ring

theorem bitsToNat_cons (x : Bool) (l : List Bool) :
    bitsToNat (x :: l) = x.toNat * 2 ^ l.length + bitsToNat l := by
  have := bitsToNat_append [x] l
  simpa [bitsToNat] using this

theorem bitsToNat_lt (l : List Bool) : bitsToNat l < 2 ^ l.length := by
  induction l with
  | nil => simp [bitsToNat]
  | cons x xs ih =>
    rw [bitsToNat_cons]
    cases x <;> simp [Nat.pow_succ] <;> omega

theorem bitsToNat_concat (xs : List Bool) (b : Bool) :
    bitsToNat (xs ++ [b]) = 2 * bitsToNat xs + b.toNat := by
  rw [bitsToNat_append]
  have h1 : bitsToNat [b] = b.toNat := by cases b <;> rfl
  simp [h1]
  ring

theorem testBit_bitsToNat (l : List Bool) (i : Nat) (h : i < l.length) :
    (bitsToNat l).testBit i = l.getD (l.length - 1 - i) false := by
  induction l using List.reverseRecOn generalizing i with
  | nil => simp at h
  | append_singleton xs b ih =>
    rw [bitsToNat_concat]
    match i with
    | 0 =>
      rw [Nat.testBit_zero]
      have hlen : (xs ++ [b]).length - 1 - 0 = xs.length := by simp
      rw [hlen, List.getD_eq_getElem?_getD, List.getElem?_append_right (by simp)]
      cases b <;> simp [Nat.mul_add_mod]
    | i' + 1 =>
      have hi' : i' < xs.length := by simp at h; omega
      rw [Nat.testBit_add_one]
      have e : (2 * bitsToNat xs + b.toNat) / 2 = bitsToNat xs := by
        cases b <;> simp <;> omega
      rw [e, ih i' hi']
      have hlen : (xs ++ [b]).length - 1 - (i' + 1) = xs.length - 1 - i' := by
        simp; omega
      rw [hlen, List.getD_eq_getElem?_getD, List.getD_eq_getElem?_getD,
        List.getElem?_append_left (by omega)]

theorem sizeFieldBits_length (l len : Nat) : (sizeFieldBits l len).length = l := by
  simp [sizeFieldBits]

theorem sizeFieldBits_getD (l len j : Nat) (h : j < l) :
    (sizeFieldBits l len).getD j false = len.testBit (l - 1 - j) := by
  simp only [sizeFieldBits]
  rw [List.getD_eq_getElem?_getD, List.getElem?_map, List.getElem?_reverse (by simpa using h)]
  simp only [List.length_range]
  rw [List.getElem?_range (by omega)]
  rfl

theorem bitsToNat_sizeFieldBits (l len : Nat) :
    bitsToNat (sizeFieldBits l len) = len % 2 ^ l := by
  apply Nat.eq_of_testBit_eq
  intro i
  by_cases hi : i < l
  · rw [testBit_bitsToNat _ _ (by simpa [sizeFieldBits_length] using hi)]
    rw [sizeFieldBits_length, sizeFieldBits_getD l len _ (by omega)]
    rw [Nat.testBit_mod_two_pow]
    have : l - 1 - (l - 1 - i) = i := by omega
    rw [this]
    simp [hi]
  · have h1 : (bitsToNat (sizeFieldBits l len)).testBit i = false := by
      apply Nat.testBit_lt_two_pow
      calc bitsToNat (sizeFieldBits l len) < 2 ^ l := by
            simpa [sizeFieldBits_length] using bitsToNat_lt (sizeFieldBits l len)
        _ ≤ 2 ^ i := Nat.pow_le_pow_right (by omega) (by omega)
    rw [h1, Nat.testBit_mod_two_pow]
    simp [hi]

theorem byteBits_length (x : Nat) : (byteBits x).length = 8 := by simp [byteBits]

theorem byteBits_eq_sizeFieldBits (x : Nat) : byteBits x = sizeFieldBits 8 x := rfl

theorem bitsToNat_byteBits (x : Nat) (h : x < 256) : bitsToNat (byteBits x) = x := by
  rw [byteBits_eq_sizeFieldBits, bitsToNat_sizeFieldBits]
  omega

theorem byteBits_bitsToNat (l : List Bool) (h : l.length = 8) :
    byteBits (bitsToNat l) = l := by
  have e1 : byteBits (bitsToNat l) = (List.range 8).map
      (fun i => (bitsToNat l).testBit (7 - i)) := rfl
  rw [e1]
  have e2 : ∀ i ∈ List.range 8, (bitsToNat l).testBit (7 - i) = l.getD i false := by
    intro i hi
    rw [List.mem_range] at hi
    rw [testBit_bitsToNat l (7 - i) (by omega)]
    have : l.length - 1 - (7 - i) = i := by omega
    rw [this]
  rw [List.map_congr_left e2, ← h, map_getD_range_len]

theorem bitsToByte8_full (l : List Bool) (h : l.length = 8) :
    bitsToByte8 l = bitsToNat l := by
  simp [bitsToByte8, h]

theorem flatten_byteBits_bitsToBytes (l : List Bool) (h : 8 ∣ l.length) :
    ((bitsToBytes l).map byteBits).flatten = l := by
  have main : ∀ n (l : List Bool), l.length = n → 8 ∣ l.length →
      ((bitsToBytes l).map byteBits).flatten = l := by
    intro n
    induction n using Nat.strong_induction_on with
    | _ n ih =>
      intro l hn h
      match l with
      | [] => simp [bitsToBytes]
      | b0 :: b1 :: b2 :: b3 :: b4 :: b5 :: b6 :: b7 :: rest =>
        have e1 : bitsToBytes (b0 :: b1 :: b2 :: b3 :: b4 :: b5 :: b6 :: b7 :: rest)
            = bitsToByte8 [b0, b1, b2, b3, b4, b5, b6, b7] :: bitsToBytes rest := rfl
        rw [e1]
        simp only [List.map_cons, List.flatten_cons]
        have hrest : 8 ∣ rest.length := by
          simp only [List.length_cons] at h
          omega
        have hb : byteBits (bitsToByte8 [b0, b1, b2, b3, b4, b5, b6, b7])
            = [b0, b1, b2, b3, b4, b5, b6, b7] := by
          rw [bitsToByte8_full _ (by rfl), byteBits_bitsToNat _ (by rfl)]
        rw [hb, ih rest.length (by simp only [List.length_cons] at hn; omega) rest rfl hrest]
        rfl
      | [x1] => simp at h
      | [x1, x2] => simp at h; omega
      | [x1, x2, x3] => simp at h; omega
      | [x1, x2, x3, x4] => simp at h; omega
      | [x1, x2, x3, x4, x5] => simp at h; omega
      | [x1, x2, x3, x4, x5, x6] => simp at h; omega
      | [x1, x2, x3, x4, x5, x6, x7] => simp at h; omega
  exact main l.length l rfl h

/-! ### Lemmas about `countOnes` and parity positions -/

theorem countOnes_zero : countOnes 0 = 0 := rfl

theorem testBit_true_lt (n i : Nat) (h : n.testBit i = true) : i < n :=
  Nat.lt_of_lt_of_le (Nat.lt_two_pow i) (Nat.testBit_implies_ge h)

theorem filter_eq_single_range (n i : Nat) (h : i < n) :
    (List.range n).filter (fun j => decide (j = i)) = [i] := by
  induction n with
  | zero => omega
  | succ n ihn =>
    rw [List.range_succ, List.filter_append]
    by_cases hi : i = n
    · subst hi
      have h1 : (List.range i).filter (fun j => decide (j = i)) = [] :=
        List.filter_eq_nil_iff.mpr (by intro a ha; simp [List.mem_range] at ha ⊢; omega)
      simp [h1]
    · have h2 : i < n := by omega
      rw [ihn h2]
      simp
      omega

theorem countOnes_two_pow (i : Nat) : countOnes (2 ^ i) = 1 := by
  unfold countOnes
  have e : (List.range (2 ^ i)).filter (fun j => (2 ^ i).testBit j)
      = (List.range (2 ^ i)).filter (fun j => decide (j = i)) := by
    apply List.filter_congr
    intro a _
    rw [Nat.testBit_two_pow]
    exact decide_eq_decide.mpr (by omega)
  rw [e, filter_eq_single_range _ _ (Nat.lt_two_pow i)]
  rfl

theorem two_le_countOnes (n i j : Nat) (hij : i ≠ j)
    (hi : n.testBit i = true) (hj : n.testBit j = true) : 2 ≤ countOnes n := by
  unfold countOnes
  set L := (List.range n).filter (fun k => n.testBit k) with hL
  have hmi : i ∈ L := by
    rw [hL, List.mem_filter, List.mem_range]
    exact ⟨testBit_true_lt n i hi, hi⟩
  have hmj : j ∈ L := by
    rw [hL, List.mem_filter, List.mem_range]
    exact ⟨testBit_true_lt n j hj, hj⟩
  have hmj' : j ∈ L.erase i := (List.mem_erase_of_ne (by omega)).mpr hmj
  have h1 : (L.erase i).length = L.length - 1 := List.length_erase_of_mem hmi
  have h2 : 1 ≤ (L.erase i).length := List.length_pos.mpr (List.ne_nil_of_mem hmj')
  have h3 : 1 ≤ L.length := List.length_pos.mpr (List.ne_nil_of_mem hmi)
  omega

theorem eq_two_pow_of_countOnes_le_one (n : Nat) (h : countOnes n ≤ 1) :
    n = 0 ∨ ∃ i, n = 2 ^ i := by
  by_cases hz : n = 0
  · exact Or.inl hz
  · obtain ⟨i, hi⟩ := Nat.ne_zero_implies_bit_true hz
    refine Or.inr ⟨i, Nat.eq_of_testBit_eq (fun k => ?_)⟩
    by_cases hk : k = i
    · subst hk
      rw [hi, Nat.testBit_two_pow_self]
    · have hnk : n.testBit k = false := by
        by_contra hc
        have := two_le_countOnes n i k (by omega) hi (by simpa using hc)
        omega
      rw [hnk, Nat.testBit_two_pow_of_ne (by omega)]

theorem countOnes_ge_two_of_group (r i : Nat) (hand : r &&& 2 ^ i = 2 ^ i)
    (hne : r ≠ 2 ^ i) : 2 ≤ countOnes r := by
  have hbit : r.testBit i = true := by
    have := congrArg (fun x => x.testBit i) hand
    simpa [Nat.testBit_and, Nat.testBit_two_pow_self] using this
  by_contra hc
  rcases eq_two_pow_of_countOnes_le_one r (by omega) with h0 | ⟨j, hj⟩
  · subst h0; simp at hbit
  · subst hj
    rw [Nat.testBit_two_pow] at hbit
    have : j = i := by simpa using hbit
    exact hne (by rw [this])

theorem length_filter_parityPos_range (b : Nat) :
    ((List.range (2 ^ b)).filter (fun q => decide (countOnes q ≤ 1))).length = b + 1 := by
  induction b with
  | zero => decide
  | succ b ih =>
    have e : (2:Nat) ^ (b + 1) = 2 ^ b + 2 ^ b := by ring
    rw [e, List.range_add, List.filter_append, List.length_append, ih, List.filter_map]
    have e2 : (List.range (2 ^ b)).filter
          ((fun q => decide (countOnes q ≤ 1)) ∘ (fun x => 2 ^ b + x))
        = (List.range (2 ^ b)).filter (fun q => decide (q = 0)) := by
      apply List.filter_congr
      intro q hq
      rw [List.mem_range] at hq
      show decide (countOnes (2 ^ b + q) ≤ 1) = decide (q = 0)
      apply decide_eq_decide.mpr
      constructor
      · intro hle
        by_contra hq0
        obtain ⟨j, hj⟩ := Nat.ne_zero_implies_bit_true hq0
        have hjb : j < b := by
          have h1 : 2 ^ j ≤ q := Nat.testBit_implies_ge hj
          have h2 : (2:Nat) ^ j < 2 ^ b := by omega
          exact (Nat.pow_lt_pow_iff_right (by omega)).mp h2
        have hbitj : (2 ^ b + q).testBit j = true := by
          rw [Nat.testBit_two_pow_add_gt hjb]
          exact hj
        have hbitb : (2 ^ b + q).testBit b = true := by
          rw [Nat.testBit_two_pow_add_eq]
          rw [Nat.testBit_lt_two_pow hq]
          rfl
        have := two_le_countOnes (2 ^ b + q) j b (by omega) hbitj hbitb
        omega
      · intro hq0
        subst hq0
        rw [Nat.add_zero, countOnes_two_pow]
    rw [e2, filter_eq_single_range _ 0 (Nat.pos_pow_of_pos b (by omega)), List.length_map]
    rfl

theorem dataCount_two_pow (b : Nat) : dataCount (2 ^ b) = 2 ^ b - (b + 1) := by
  unfold dataCount
  have hsplit := List.length_eq_length_filter_add
    (l := List.range (2 ^ b)) (fun q => decide (countOnes q ≤ 1))
  have e : (List.range (2 ^ b)).filter (fun q => !decide (countOnes q ≤ 1))
      = (List.range (2 ^ b)).filter (fun q => decide (2 ≤ countOnes q)) := by
    apply List.filter_congr
    intro q _
    rw [← decide_not]
    exact decide_eq_decide.mpr (by omega)
  rw [e] at hsplit
  rw [List.length_range] at hsplit
  rw [length_filter_parityPos_range] at hsplit
  omega

theorem dataCount_succ (k : Nat) :
    dataCount (k + 1) = dataCount k + (if 2 ≤ countOnes k then 1 else 0) := by
  unfold dataCount
  rw [List.range_succ, List.filter_append]
  by_cases h : 2 ≤ countOnes k <;> simp [h]

theorem dataCount_mono {a b : Nat} (h : a ≤ b) : dataCount a ≤ dataCount b := by
  unfold dataCount
  conv_rhs => rw [show b = a + (b - a) by omega]
  rw [List.range_add, List.filter_append, List.length_append]
  exact Nat.le_add_right _ _

/-! ### The block-filling loop in closed form -/

theorem dataCount_zero : dataCount 0 = 0 := rfl

theorem fillBlockFrom_eq (steps : Nat) : ∀ (idx : Nat) (chunk : List Bool),
    fillBlockFrom idx steps chunk = (List.range' idx steps).map
      (fun q => if countOnes q ≤ 1 then false
                else chunk.getD (dataCount q - dataCount idx) false) := by
  induction steps with
  | zero => intro idx chunk; rfl
  | succ steps ih =>
    intro idx chunk
    rw [List.range'_succ]
    by_cases hpar : countOnes idx ≤ 1
    · have hdc : dataCount (idx + 1) = dataCount idx := by
        rw [dataCount_succ, if_neg (by omega), Nat.add_zero]
      have hL : fillBlockFrom idx (steps + 1) chunk
          = false :: fillBlockFrom (idx + 1) steps chunk := by
        simp only [fillBlockFrom, if_pos hpar]
      rw [hL]
      simp only [List.map_cons]
      rw [if_pos hpar, ih]
      refine congrArg (List.cons false) (List.map_congr_left ?_)
      intro q _
      rw [hdc]
    · have hdc : dataCount (idx + 1) = dataCount idx + 1 := by
        rw [dataCount_succ, if_pos (by omega)]
      match chunk with
      | [] =>
        have hL : fillBlockFrom idx (steps + 1) ([] : List Bool)
            = false :: fillBlockFrom (idx + 1) steps [] := by
          simp only [fillBlockFrom, if_neg hpar]
        rw [hL]
        simp only [List.map_cons]
        rw [if_neg hpar]
        refine congrArg (List.cons _) ?_
        rw [ih]
        apply List.map_congr_left
        intro q _
        by_cases hq2 : countOnes q ≤ 1
        · rw [if_pos hq2, if_pos hq2]
        · rw [if_neg hq2, if_neg hq2]
          rfl
      | x :: xs =>
        have hL : fillBlockFrom idx (steps + 1) (x :: xs)
            = x :: fillBlockFrom (idx + 1) steps xs := by
          simp only [fillBlockFrom, if_neg hpar]
        rw [hL]
        simp only [List.map_cons]
        rw [if_neg hpar, Nat.sub_self]
        refine congrArg (List.cons x) ?_
        rw [ih]
        apply List.map_congr_left
        intro q hq
        rw [List.mem_range'_1] at hq
        by_cases hq2 : countOnes q ≤ 1
        · rw [if_pos hq2, if_pos hq2]
        · rw [if_neg hq2, if_neg hq2]
          have hmono : dataCount idx + 1 ≤ dataCount q := by
            rw [← hdc]
            exact dataCount_mono (by omega)
          have e : dataCount q - dataCount idx = (dataCount q - dataCount (idx + 1)) + 1 := by
            omega
          rw [e]
          rfl

theorem fillBlockFrom_length (idx steps : Nat) (chunk : List Bool) :
    (fillBlockFrom idx steps chunk).length = steps := by
  rw [fillBlockFrom_eq]
  simp

theorem fillBlock_getD (N : Nat) (chunk : List Bool) (q : Nat) (h : q < N) :
    (fillBlockFrom 0 N chunk).getD q false =
      if countOnes q ≤ 1 then false else chunk.getD (dataCount q) false := by
  rw [fillBlockFrom_eq]
  have e : List.range' 0 N = List.range N := (List.range_eq_range' N).symm
  rw [e, getD_map_range _ _ _ _ h, dataCount_zero, Nat.sub_zero]

/-! ### The parity-setting fold -/

theorem getD_set_ne (l : List Bool) (i q : Nat) (x : Bool) (h : i ≠ q) :
    (l.set i x).getD q false = l.getD q false := by
  rw [List.getD_eq_getElem?_getD, List.getD_eq_getElem?_getD, List.getElem?_set_ne h]

theorem getD_set_self (l : List Bool) (i : Nat) (x : Bool) (h : i < l.length) :
    (l.set i x).getD i false = x := by
  rw [List.getD_eq_getElem?_getD, List.getElem?_set_eq_of_lt x h]
  rfl

theorem mapM_some_of_forall {α β : Type} (f : α → Option β) (g : α → β) :
    ∀ (l : List α), (∀ a ∈ l, f a = some (g a)) → l.mapM f = some (l.map g) := by
  intro l
  induction l with
  | nil => intro _; rfl
  | cons x xs ih =>
    intro h
    rw [List.mapM_cons, h x (by simp), ih (fun a ha => h a (by simp [ha]))]
    rfl

theorem get?_eq_some_getD (l : List Bool) (q : Nat) (h : q < l.length) :
    l.get? q = some (l.getD q false) := by
  rw [List.get?_eq_getElem?, List.getD_eq_getElem?_getD, List.getElem?_eq_getElem h]
  rfl

theorem mem_eccPositions (N mask q : Nat) :
    q ∈ eccPositions N mask ↔ q < N ∧ q &&& mask = mask := by
  simp [eccPositions, List.mem_filter, List.mem_range]

theorem eccBitAt_eq (N : Nat) (blk : List Bool) (mask : Nat)
    (hlen : N ≤ blk.length) (hmask : mask < N) :
    eccBitAt N blk mask
      = some (xorFold ((eccPositions N mask).map (fun q => blk.getD q false))) := by
  unfold eccBitAt
  rw [mapM_some_of_forall (fun q => blk.get? q) (fun q => blk.getD q false) _
    (by
      intro q hq
      rw [mem_eccPositions] at hq
      exact get?_eq_some_getD blk q (by omega))]
  rw [Option.some_bind]
  apply reduce1_xor_eq
  have hmem : mask ∈ eccPositions N mask :=
    (mem_eccPositions N mask mask).mpr ⟨hmask, Nat.and_self mask⟩
  exact List.ne_nil_of_mem (List.mem_map_of_mem _ hmem)

theorem two_pow_ne_two_pow {i j : Nat} (h : i ≠ j) : (2:Nat) ^ i ≠ 2 ^ j :=
  fun e => h (Nat.pow_right_injective (by omega) e)

theorem not_mem_eccPositions_pow {N i j q : Nat} (hij : i ≠ j) (hq : q = 2 ^ i)
    (hmem : q ∈ eccPositions N (2 ^ j)) : False := by
  rw [mem_eccPositions] at hmem
  obtain ⟨_, hand⟩ := hmem
  subst hq
  have := congrArg (fun x => x.testBit j) hand
  simp only [Nat.testBit_and, Nat.testBit_two_pow_self, Bool.and_true] at this
  rw [Nat.testBit_two_pow_of_ne hij] at this
  exact Bool.false_ne_true this

theorem setEccFold_spec (N : Nat) :
    ∀ (is : List Nat) (blk : List Bool), blk.length = N → is.Nodup →
    (∀ i ∈ is, 2 ^ i < N) →
    ∃ blk',
      is.foldlM (fun cur i =>
          (eccBitAt N cur (1 <<< i)).bind (fun bit => setChecked cur (1 <<< i) bit)) blk
        = some blk'
      ∧ blk'.length = N
      ∧ (∀ q, (∀ i ∈ is, q ≠ 2 ^ i) → blk'.getD q false = blk.getD q false)
      ∧ (∀ i ∈ is, blk'.getD (2 ^ i) false
          = xorFold ((eccPositions N (2 ^ i)).map (fun q => blk.getD q false))) := by
  intro is
  induction is with
  | nil =>
    intro blk hlen _ _
    exact ⟨blk, rfl, hlen, fun q _ => rfl, by simp⟩
  | cons i is ih =>
    intro blk hlen hnd hbound
    have hiN : 2 ^ i < N := hbound i (by simp)
    have hnd' := List.nodup_cons.mp hnd
    have hstep : (eccBitAt N blk (1 <<< i)).bind (fun bit => setChecked blk (1 <<< i) bit)
        = some (blk.set (2 ^ i)
            (xorFold ((eccPositions N (2 ^ i)).map (fun q => blk.getD q false)))) := by
      rw [Nat.one_shiftLeft, eccBitAt_eq N blk (2 ^ i) (by omega) hiN, Option.some_bind]
      simp [setChecked, hlen, hiN]
    set v := xorFold ((eccPositions N (2 ^ i)).map (fun q => blk.getD q false)) with hv
    obtain ⟨blk', hfold, hlen', huntouched, hset⟩ :=
      ih (blk.set (2 ^ i) v) (by simp [hlen]) hnd'.2 (fun j hj => hbound j (by simp [hj]))
    refine ⟨blk', ?_, hlen', ?_, ?_⟩
    · rw [List.foldlM_cons, hstep]
      exact hfold
    · intro q hq
      rw [huntouched q (fun j hj => hq j (by simp [hj]))]
      exact getD_set_ne blk (2 ^ i) q v (fun e => hq i (by simp) e.symm)
    · intro j hj
      rcases List.mem_cons.mp hj with hji | hjtail
      · rw [hji]
        rw [huntouched (2 ^ i) (fun k hk =>
          two_pow_ne_two_pow (fun e => hnd'.1 (by rw [e]; exact hk)))]
        rw [getD_set_self blk (2 ^ i) v (by omega)]
      · rw [hset j hjtail]
        congr 1
        apply List.map_congr_left
        intro q hq
        have hqne : q ≠ 2 ^ i := by
          intro e
          exact not_mem_eccPositions_pow (fun e' => hnd'.1 (by rw [e']; exact hjtail)) e hq
        exact getD_set_ne blk (2 ^ i) q v (fun e => hqne e.symm)

theorem xorFold_map_erase (l : List Nat) (f : Nat → Bool) (p : Nat) (hmem : p ∈ l) :
    xorFold (l.map f) = xor (f p) (xorFold ((l.erase p).map f)) := by
  have hperm : (l.map f).Perm (f p :: (l.erase p).map f) :=
    List.Perm.map f (List.perm_cons_erase hmem)
  rw [xorFold_perm _ _ hperm, xorFold_cons]

theorem xor_eq_false_iff_bool (a b : Bool) : xor a b = false ↔ a = b := by
  cases a <;> cases b <;> simp

theorem getD_eq_xorFold_modified (l : List Nat) (f : Nat → Bool) (p : Nat)
    (hmem : p ∈ l) (hnd : l.Nodup) (hclean : xorFold (l.map f) = false) :
    f p = xorFold (l.map (fun q => if q = p then false else f q)) := by
  have h1 := xorFold_map_erase l f p hmem
  rw [hclean] at h1
  have h2 : f p = xorFold ((l.erase p).map f) :=
    (xor_eq_false_iff_bool _ _).mp h1.symm
  have h3 := xorFold_map_erase l (fun q => if q = p then false else f q) p hmem
  have hp0 : (fun q => if q = p then false else f q) p = false := by simp
  rw [hp0] at h3
  have h4 : ((l.erase p).map (fun q => if q = p then false else f q))
      = (l.erase p).map f := by
    apply List.map_congr_left
    intro q hq
    have hqne : q ≠ p := by
      intro e
      rw [e] at hq
      exact hnd.not_mem_erase hq
    rw [if_neg hqne]
  rw [h3, h4]
  simpa using h2

theorem eccPositions_nodup (N mask : Nat) : (eccPositions N mask).Nodup :=
  (List.nodup_range N).filter _

theorem eccPositions_zero (N : Nat) : eccPositions N 0 = List.range N := by
  unfold eccPositions
  have e : ∀ q ∈ List.range N, (q &&& 0 == 0) = true := by
    intro q _
    simp
  rw [List.filter_congr e]
  exact List.filter_true _

theorem buildBlock_spec (b N : Nat) (chunk : List Bool) (hN : N = 2 ^ b) (hb : 1 ≤ b) :
    ∃ B, buildBlock b N chunk = some B
      ∧ B.length = N
      ∧ (∀ q, q < N → 2 ≤ countOnes q → B.getD q false = chunk.getD (dataCount q) false)
      ∧ (∀ i, i < b → xorFold ((eccPositions N (2 ^ i)).map (fun q => B.getD q false)) = false)
      ∧ xorFold B = false
      ∧ (∀ p, (p = 0 ∨ ∃ i, i < b ∧ p = 2 ^ i) →
          B.getD p false = xorFold ((eccPositions N p).map
            (fun q => if q = p then false else B.getD q false))) := by
  have hN2 : 2 ≤ N := by
    rw [hN]
    calc 2 = 2 ^ 1 := by ring
    _ ≤ 2 ^ b := Nat.pow_le_pow_right (by omega) hb
  have hpowN : ∀ i, i < b → 2 ^ i < N := by
    intro i hi
    rw [hN]
    exact (Nat.pow_lt_pow_iff_right (by omega)).mpr hi
  set fill := fillBlockFrom 0 N chunk with hfilldef
  have hfl : fill.length = N := fillBlockFrom_length 0 N chunk
  have hfill_par : ∀ i, i < b → fill.getD (2 ^ i) false = false := by
    intro i hi
    rw [hfilldef, fillBlock_getD N chunk _ (hpowN i hi), if_pos (by rw [countOnes_two_pow])]
  have hfill_zero : fill.getD 0 false = false := by
    rw [hfilldef, fillBlock_getD N chunk 0 (by omega), if_pos (by rw [countOnes_zero]; omega)]
  have hfill_data : ∀ q, q < N → 2 ≤ countOnes q →
      fill.getD q false = chunk.getD (dataCount q) false := by
    intro q hq hq2
    rw [hfilldef, fillBlock_getD N chunk q hq, if_neg (by omega)]
  obtain ⟨blk1, hfold, hlen1, huntouched, hsetvals⟩ :=
    setEccFold_spec N (List.range b) fill hfl (List.nodup_range b)
      (fun i hi => hpowN i (List.mem_range.mp hi))
  have hsetEcc : setEccBits b N fill = some blk1 := hfold
  have hzero1 : blk1.getD 0 false = false := by
    rw [huntouched 0 (fun i _ => by
      have : 0 < 2 ^ i := Nat.pos_pow_of_pos i (by omega)
      omega)]
    exact hfill_zero
  have hdata1 : ∀ q, q < N → 2 ≤ countOnes q →
      blk1.getD q false = chunk.getD (dataCount q) false := by
    intro q hq hq2
    rw [huntouched q (fun i _ => by
      intro e
      rw [e, countOnes_two_pow] at hq2
      omega)]
    exact hfill_data q hq hq2
  have hpar1 : ∀ i, i < b → blk1.getD (2 ^ i) false
      = xorFold ((eccPositions N (2 ^ i)).map (fun q => fill.getD q false)) := by
    intro i hi
    exact hsetvals i (List.mem_range.mpr hi)
  -- decompose blk1 as a cons to handle the global-parity set
  obtain ⟨hd, tl, hcons⟩ : ∃ hd tl, blk1 = hd :: tl := by
    match blk1, hlen1 with
    | [], hlen1 => simp at hlen1; omega
    | x :: xs, _ => exact ⟨x, xs, rfl⟩
  have hhd : hd = false := by
    have := hzero1
    rw [hcons] at this
    exact this
  have hglobal : setGlobalParity blk1 = some (blk1.set 0 (xorFold blk1)) := by
    unfold setGlobalParity
    rw [reduce1_xor_eq blk1 (by rw [hcons]; exact List.cons_ne_nil hd tl), Option.some_bind]
    simp [setChecked, hlen1]
    omega
  set g := xorFold blk1 with hgdef
  set B := blk1.set 0 g with hBdef
  have hBuild : buildBlock b N chunk = some B := by
    unfold buildBlock
    rw [← hfilldef, hsetEcc, Option.some_bind, hglobal]
  have hBlen : B.length = N := by rw [hBdef, List.length_set, hlen1]
  have hBne : ∀ q, q ≠ 0 → B.getD q false = blk1.getD q false := by
    intro q hq
    exact getD_set_ne blk1 0 q g (fun e => hq e.symm)
  have hBcons : B = g :: tl := by rw [hBdef, hcons]; rfl
  have hg : g = xorFold tl := by
    rw [hgdef, hcons, hhd, xorFold_cons]
    simp
  have hBxor : xorFold B = false := by
    rw [hBcons, xorFold_cons, hg]
    simp
  have hBdata : ∀ q, q < N → 2 ≤ countOnes q →
      B.getD q false = chunk.getD (dataCount q) false := by
    intro q hq hq2
    rw [hBne q (by
      intro e
      rw [e, countOnes_zero] at hq2
      omega)]
    exact hdata1 q hq hq2
  have hclean : ∀ i, i < b →
      xorFold ((eccPositions N (2 ^ i)).map (fun q => B.getD q false)) = false := by
    intro i hi
    have hmemp : (2 ^ i) ∈ eccPositions N (2 ^ i) :=
      (mem_eccPositions N (2 ^ i) (2 ^ i)).mpr ⟨hpowN i hi, Nat.and_self _⟩
    have hzero_notmem : ∀ q ∈ eccPositions N (2 ^ i), q ≠ 0 := by
      intro q hq e
      rw [mem_eccPositions] at hq
      rw [e] at hq
      have h0 : (0:Nat) &&& 2 ^ i = 0 := Nat.zero_and _
      have : 0 < 2 ^ i := Nat.pos_pow_of_pos i (by omega)
      omega
    have e1 : (eccPositions N (2 ^ i)).map (fun q => B.getD q false)
        = (eccPositions N (2 ^ i)).map (fun q => blk1.getD q false) := by
      apply List.map_congr_left
      intro q hq
      exact hBne q (hzero_notmem q hq)
    rw [e1]
    rw [xorFold_map_erase _ _ _ hmemp]
    have e2 : ((eccPositions N (2 ^ i)).erase (2 ^ i)).map (fun q => blk1.getD q false)
        = ((eccPositions N (2 ^ i)).erase (2 ^ i)).map (fun q => fill.getD q false) := by
      apply List.map_congr_left
      intro q hq
      have hqmem : q ∈ eccPositions N (2 ^ i) := List.mem_of_mem_erase hq
      have hqne : q ≠ 2 ^ i := by
        intro e
        rw [e] at hq
        exact (eccPositions_nodup N (2 ^ i)).not_mem_erase hq
      rw [mem_eccPositions] at hqmem
      have hq2 : 2 ≤ countOnes q := countOnes_ge_two_of_group q i hqmem.2 hqne
      rw [huntouched q (fun j _ => by
        intro e
        rw [e, countOnes_two_pow] at hq2
        omega)]
    rw [e2, hpar1 i hi]
    rw [xorFold_map_erase _ (fun q => fill.getD q false) _ hmemp, hfill_par i hi]
    simp
  refine ⟨B, hBuild, hBlen, hBdata, hclean, hBxor, ?_⟩
  intro p hp
  rcases hp with hp0 | ⟨i, hi, hpi⟩
  · rw [hp0, eccPositions_zero]
    have hmem0 : 0 ∈ List.range N := List.mem_range.mpr (by omega)
    have hcleanB : xorFold ((List.range N).map (fun q => B.getD q false)) = false := by
      have e : (List.range N).map (fun q => B.getD q false) = B := by
        rw [← hBlen]
        exact map_getD_range_len B false
      rw [e]
      exact hBxor
    exact getD_eq_xorFold_modified (List.range N) (fun q => B.getD q false) 0
      hmem0 (List.nodup_range N) hcleanB
  · rw [hpi]
    exact getD_eq_xorFold_modified (eccPositions N (2 ^ i)) (fun q => B.getD q false)
      (2 ^ i) ((mem_eccPositions N (2 ^ i) (2 ^ i)).mpr ⟨hpowN i hi, Nat.and_self _⟩)
      (eccPositions_nodup N (2 ^ i)) (hclean i hi)

/-! ### Payload extraction and the block loop -/

theorem map_dataCount_range (chunk : List Bool) (N : Nat) :
    ((List.range N).filter (fun q => decide (2 ≤ countOnes q))).map
        (fun q => chunk.getD (dataCount q) false)
      = (List.range (dataCount N)).map (fun k => chunk.getD k false) := by
  induction N with
  | zero => rfl
  | succ N ih =>
    rw [List.range_succ, List.filter_append, List.map_append, ih, dataCount_succ]
    by_cases h : 2 ≤ countOnes N
    · rw [if_pos h]
      have e : List.filter (fun q => decide (2 ≤ countOnes q)) [N] = [N] := by simp [h]
      rw [e, List.range_succ, List.map_append]
      rfl
    · rw [if_neg h, Nat.add_zero]
      have e : List.filter (fun q => decide (2 ≤ countOnes q)) [N] = [] := by simp [h]
      rw [e]
      simp

theorem extractPayload_eq (B : List Bool) (N : Nat) (hlen : B.length = N)
    (chunk : List Bool)
    (hdata : ∀ q, q < N → 2 ≤ countOnes q → B.getD q false = chunk.getD (dataCount q) false) :
    extractPayload B = (List.range (dataCount N)).map (fun k => chunk.getD k false) := by
  unfold extractPayload
  rw [hlen]
  have e : ((List.range N).filter (fun q => decide (2 ≤ countOnes q))).map
        (fun q => B.getD q false)
      = ((List.range N).filter (fun q => decide (2 ≤ countOnes q))).map
        (fun q => chunk.getD (dataCount q) false) := by
    apply List.map_congr_left
    intro q hq
    rw [List.mem_filter, List.mem_range] at hq
    exact hdata q hq.1 (by simpa using hq.2)
  rw [e, map_dataCount_range]

theorem getD_take (l : List Bool) (d k : Nat) (h : k < d) :
    (l.take d).getD k false = l.getD k false := by
  rw [List.getD_eq_getElem?_getD, List.getD_eq_getElem?_getD, List.getElem?_take_of_lt h]

theorem getD_drop (l : List Bool) (d k : Nat) :
    (l.drop d).getD k false = l.getD (d + k) false := by
  rw [List.getD_eq_getElem?_getD, List.getD_eq_getElem?_getD, List.getElem?_drop]

theorem buildBlocks_spec (b N d : Nat) (hN : N = 2 ^ b) (hb : 1 ≤ b)
    (hd : dataCount N = d) :
    ∀ (count : Nat) (bits : List Bool),
    ∃ blocks, buildBlocks b N d count bits = some blocks
      ∧ blocks.length = count
      ∧ (∀ B ∈ blocks, B.length = N
          ∧ (∀ i, i < b →
              xorFold ((eccPositions N (2 ^ i)).map (fun q => B.getD q false)) = false)
          ∧ xorFold B = false
          ∧ (∀ p, (p = 0 ∨ ∃ i, i < b ∧ p = 2 ^ i) →
              B.getD p false = xorFold ((eccPositions N p).map
                (fun q => if q = p then false else B.getD q false))))
      ∧ (blocks.map extractPayload).flatten
          = (List.range (count * d)).map (fun k => bits.getD k false) := by
  intro count
  induction count with
  | zero => intro bits; exact ⟨[], rfl, rfl, by simp, by simp⟩
  | succ count ih =>
    intro bits
    obtain ⟨B, hB, hBlen, hBdata, hBclean, hBxor, hBmod⟩ :=
      buildBlock_spec b N (bits.take d) hN hb
    obtain ⟨rest, hrest, hrestlen, hrestprops, hrestpayload⟩ := ih (bits.drop d)
    refine ⟨B :: rest, ?_, by simp [hrestlen], ?_, ?_⟩
    · show (buildBlock b N (bits.take d)).bind _ = _
      rw [hB, Option.some_bind, hrest]
      rfl
    · intro B' hB'
      rcases List.mem_cons.mp hB' with e | hmem
      · rw [e]; exact ⟨hBlen, hBclean, hBxor, hBmod⟩
      · exact hrestprops B' hmem
    · simp only [List.map_cons, List.flatten_cons]
      rw [hrestpayload, extractPayload_eq B N hBlen (bits.take d) hBdata, hd]
      rw [show (count + 1) * d = d + count * d by ring, List.range_add, List.map_append,
        List.map_map]
      congr 1
      · apply List.map_congr_left
        intro k hk
        exact getD_take bits d k (List.mem_range.mp hk)
      · apply List.map_congr_left
        intro k _
        show (bits.drop d).getD k false = bits.getD (d + k) false
        exact getD_drop bits d k

/-! ### The interleaving loop -/

theorem interleave_spec (N : Nat) (blocks : List (List Bool))
    (h : ∀ B ∈ blocks, B.length = N) :
    interleave N blocks
      = some ((List.range N).map (fun i => blocks.map (fun B => B.getD i false))).flatten := by
  unfold interleave
  rw [mapM_some_of_forall (fun i => blocks.mapM (fun blk : List Bool => blk.get? i))
    (fun i => blocks.map (fun B => B.getD i false)) _ ?inner]
  · rfl
  case inner =>
    intro i hi
    rw [List.mem_range] at hi
    exact mapM_some_of_forall (fun blk : List Bool => blk.get? i)
      (fun B => B.getD i false) blocks
      (fun B hB => get?_eq_some_getD B i (by rw [h B hB]; exact hi))

/-! ### Arithmetic of the block count -/

theorem ceil_div_bounds (x d : Nat) (hd : 0 < d) (hx : 0 < x) :
    x ≤ ((x + d - 1) / d) * d ∧ ((x + d - 1) / d) * d < x + d ∧ 1 ≤ (x + d - 1) / d := by
  have hmod : d * ((x + d - 1) / d) + (x + d - 1) % d = x + d - 1 := Nat.div_add_mod _ _
  have hlt : (x + d - 1) % d < d := Nat.mod_lt _ hd
  have h3 : 1 ≤ (x + d - 1) / d := by
    rcases Nat.eq_zero_or_pos ((x + d - 1) / d) with h0 | hpos
    · rw [h0, Nat.mul_zero] at hmod
      omega
    · exact hpos
  refine ⟨?_, ?_, h3⟩
  · rw [Nat.mul_comm]
    generalize hs : d * ((x + d - 1) / d) = s
    rw [hs] at hmod
    omega
  · rw [Nat.mul_comm]
    generalize hs : d * ((x + d - 1) / d) = s
    rw [hs] at hmod
    omega

theorem succ_lt_two_pow_of_two_le : ∀ b, 2 ≤ b → b + 1 < 2 ^ b := by
  intro b
  induction b with
  | zero => omega
  | succ b ih =>
    intro h
    rcases Nat.lt_or_ge b 2 with h2 | h2
    · have hb1 : b = 1 := by omega
      rw [hb1]
      decide
    · have h1 := ih h2
      have hpow : (2:Nat) ^ (b + 1) = 2 * 2 ^ b := by ring
      omega

theorem blkBitsTotal_eq (self : HammingECC) : self.blkBitsTotal = 2 ^ self.blk_log_size :=
  Nat.one_shiftLeft _

theorem blkBitsData_pos (self : HammingECC) (hb : 3 ≤ self.blk_log_size) :
    0 < self.blkBitsData := by
  unfold HammingECC.blkBitsData HammingECC.blkBitsEcc
  rw [blkBitsTotal_eq]
  have := succ_lt_two_pow_of_two_le self.blk_log_size (by omega)
  omega

theorem dataCount_blkBitsTotal (self : HammingECC) :
    dataCount self.blkBitsTotal = self.blkBitsData := by
  rw [blkBitsTotal_eq, dataCount_two_pow]
  unfold HammingECC.blkBitsData HammingECC.blkBitsEcc
  rw [blkBitsTotal_eq]
  omega

/-! ### Assembly of the encode path -/

theorem encodeStream_length (self : HammingECC) (data : List Nat) :
    (self.encodeStream data).length = self.size_field_bits + data.length * 8 := by
  unfold HammingECC.encodeStream
  rw [List.length_append, sizeFieldBits_length,
    length_flatten_uniform (data.map byteBits) 8 (by
      intro r hr
      obtain ⟨x, _, hx⟩ := List.mem_map.mp hr
      rw [← hx, byteBits_length])]
  simp [Nat.mul_comm]

theorem try_encrypt_ok (self : HammingECC) (data : List Nat)
    (hb : 3 ≤ self.blk_log_size) (hb63 : self.blk_log_size ≤ 63)
    (hl : 2 ≤ self.size_field_bits) (hl63 : self.size_field_bits ≤ 63)
    (hlen : data.length < 2 ^ self.size_field_bits) :
    ∃ blocks flat,
      buildBlocks self.blk_log_size self.blkBitsTotal self.blkBitsData
          (self.blkCount (data.length * 8)) (self.encodeStream data) = some blocks
      ∧ blocks.length = self.blkCount (data.length * 8)
      ∧ (∀ B ∈ blocks, B.length = self.blkBitsTotal
          ∧ (∀ i, i < self.blk_log_size →
              xorFold ((eccPositions self.blkBitsTotal (2 ^ i)).map
                (fun q => B.getD q false)) = false)
          ∧ xorFold B = false
          ∧ (∀ p, (p = 0 ∨ ∃ i, i < self.blk_log_size ∧ p = 2 ^ i) →
              B.getD p false = xorFold ((eccPositions self.blkBitsTotal p).map
                (fun q => if q = p then false else B.getD q false))))
      ∧ interleave self.blkBitsTotal blocks = some flat
      ∧ flat = ((List.range self.blkBitsTotal).map
          (fun i => blocks.map (fun B => B.getD i false))).flatten
      ∧ self.try_encrypt data = some (Except.ok (bitsToBytes flat))
      ∧ (blocks.map extractPayload).flatten
          = (List.range (self.blkCount (data.length * 8) * self.blkBitsData)).map
              (fun k => (self.encodeStream data).getD k false) := by
  obtain ⟨blocks, hblocks, hblen, hbprops, hpayload⟩ :=
    buildBlocks_spec self.blk_log_size self.blkBitsTotal self.blkBitsData
      (blkBitsTotal_eq self) (by omega) (dataCount_blkBitsTotal self)
      (self.blkCount (data.length * 8)) (self.encodeStream data)
  have hflat := interleave_spec self.blkBitsTotal blocks (fun B hB => (hbprops B hB).1)
  refine ⟨blocks, _, hblocks, hblen, hbprops, hflat, rfl, ?_, hpayload⟩
  unfold HammingECC.try_encrypt
  rw [if_neg (by omega), if_neg (by rw [Nat.one_shiftLeft]; omega), if_neg (by omega),
    if_neg (by have := blkBitsData_pos self hb; omega)]
  rw [hblocks, Option.some_bind, hflat]
  rfl

/-! ### Decode-side helper lemmas -/

theorem getD_map_list {α β : Type} (g : α → β) (l : List α) (j : Nat) (d : β) (d' : α)
    (h : j < l.length) : (l.map g).getD j d = g (l.getD j d') := by
  rw [List.getD_eq_getElem?_getD, List.getD_eq_getElem?_getD, List.getElem?_map,
    List.getElem?_eq_getElem h]
  rfl

theorem getD_append_right' {α : Type} (l1 l2 : List α) (j : Nat) (d : α) :
    (l1 ++ l2).getD (l1.length + j) d = l2.getD j d := by
  rw [List.getD_eq_getElem?_getD, List.getD_eq_getElem?_getD,
    List.getElem?_append_right (by omega)]
  have e : l1.length + j - l1.length = j := by omega
  rw [e]

theorem take_range_of_le (k m : Nat) (h : k ≤ m) : (List.range m).take k = List.range k := by
  conv_lhs => rw [show m = k + (m - k) by omega, List.range_add]
  rw [List.take_left' (by simp)]

theorem drop_range_of_le (k m : Nat) (h : k ≤ m) :
    (List.range m).drop k = (List.range (m - k)).map (k + ·) := by
  conv_lhs => rw [show m = k + (m - k) by omega, List.range_add]
  rw [List.drop_left' (by simp)]

theorem getD_mem_of_lt {α : Type} (l : List α) (j : Nat) (d : α) (h : j < l.length) :
    l.getD j d ∈ l := by
  rw [List.getD_eq_getElem?_getD, List.getElem?_eq_getElem h]
  exact List.getElem_mem h

theorem foldl_if_or_zero (f : Nat → Bool) :
    ∀ (l : List Nat) (e : Nat), (∀ i ∈ l, f i = false) →
      l.foldl (fun e i => if f i then e ||| (1 <<< i) else e) e = e := by
  intro l
  induction l with
  | nil => intro e _; rfl
  | cons x xs ih =>
    intro e h
    rw [List.foldl_cons, if_neg (by rw [h x (by simp)]; simp)]
    exact ih e (fun i hi => h i (by simp [hi]))

theorem syndromeOf_clean (b : Nat) (blk : List Bool)
    (h : ∀ i, i < b → groupXor blk (1 <<< i) = false) : syndromeOf b blk = 0 := by
  unfold syndromeOf
  exact foldl_if_or_zero (fun i => groupXor blk (1 <<< i)) (List.range b) 0
    (fun i hi => h i (List.mem_range.mp hi))

theorem correctBlock_clean (b idx : Nat) (blk : List Bool)
    (hsyn : syndromeOf b blk = 0) (hxor : xorFold blk = false) :
    correctBlock b idx blk = Except.ok blk := by
  unfold correctBlock
  rw [hsyn, hxor]
  simp

theorem mapM_correctBlock_clean (b : Nat) :
    ∀ (l : List (List Bool)) (n : Nat),
    (∀ B ∈ l, ∀ idx, correctBlock b idx B = Except.ok B) →
    (l.enumFrom n).mapM (fun p => correctBlock b p.1 p.2) = Except.ok l := by
  intro l
  induction l with
  | nil => intro n _; rfl
  | cons B rest ih =>
    intro n h
    rw [List.enumFrom_cons, List.mapM_cons]
    have h1 : correctBlock b n B = Except.ok B := h B (by simp) n
    rw [h1, ih (n + 1) (fun B' hB' => h B' (by simp [hB']))]
    rfl

/-! ### The round trip -/

theorem hamming_round_trip (self : HammingECC) (data : List Nat)
    (hb : 3 ≤ self.blk_log_size) (hb63 : self.blk_log_size ≤ 63)
    (hl : 2 ≤ self.size_field_bits) (hl63 : self.size_field_bits ≤ 63)
    (hbytes : ∀ x ∈ data, x < 256)
    (hlen : data.length < 2 ^ self.size_field_bits) :
    ∃ out, self.try_encrypt data = some (Except.ok out)
      ∧ self.try_decrypt out = Except.ok data := by
  obtain ⟨blocks, flat, hblocks, hblen, hbprops, hflatcall, hflatdef, henc, hpayload⟩ :=
    try_encrypt_ok self data hb hb63 hl hl63 hlen
  refine ⟨bitsToBytes flat, henc, ?_⟩
  have hNpow : self.blkBitsTotal = 2 ^ self.blk_log_size := blkBitsTotal_eq self
  have hNpos : 0 < self.blkBitsTotal := by
    rw [hNpow]
    exact Nat.pos_pow_of_pos _ (by omega)
  have hdpos : 0 < self.blkBitsData := blkBitsData_pos self hb
  have hcounteq : self.blkCount (data.length * 8)
      = (data.length * 8 + self.size_field_bits + self.blkBitsData - 1) / self.blkBitsData := rfl
  have hceil := ceil_div_bounds (data.length * 8 + self.size_field_bits)
    self.blkBitsData hdpos (by omega)
  rw [← hcounteq] at hceil
  have hstreamlen : (self.encodeStream data).length
      = self.size_field_bits + data.length * 8 := encodeStream_length self data
  -- facts about the interleaved bit sequence
  have hrowlen : ∀ r ∈ (List.range self.blkBitsTotal).map
      (fun i => blocks.map (fun B => B.getD i false)), r.length = blocks.length := by
    intro r hr
    obtain ⟨i, _, hi⟩ := List.mem_map.mp hr
    rw [← hi, List.length_map]
  have hflatlen : flat.length
      = self.blkBitsTotal * self.blkCount (data.length * 8) := by
    rw [hflatdef, length_flatten_uniform _ blocks.length hrowlen, List.length_map,
      List.length_range, hblen]
  have hflatget : ∀ i j, i < self.blkBitsTotal → j < self.blkCount (data.length * 8) →
      flat.getD (i * self.blkCount (data.length * 8) + j) false
        = (blocks.getD j []).getD i false := by
    intro i j hi hj
    have h1 := getD_flatten_uniform _ blocks.length false hrowlen i j
      (by simpa using hi) (by rw [hblen]; exact hj)
    rw [hblen] at h1
    rw [hflatdef, h1, getD_map_range _ _ _ _ hi, getD_map_list _ blocks j false [] (by omega)]
  have h8flat : (8:Nat) ∣ flat.length := by
    rw [hflatlen, hNpow]
    have h23 : (8:Nat) = 2 ^ 3 := rfl
    exact Dvd.dvd.mul_right (h23 ▸ pow_dvd_pow 2 hb) _
  have hbits : ((bitsToBytes flat).map byteBits).flatten = flat :=
    flatten_byteBits_bitsToBytes flat h8flat
  have hblockseq : (List.range (self.blkCount (data.length * 8))).map
      (fun j => (List.range self.blkBitsTotal).map
        (fun i => flat.getD (i * self.blkCount (data.length * 8) + j) false)) = blocks := by
    have e1 : ∀ j ∈ List.range (self.blkCount (data.length * 8)),
        (List.range self.blkBitsTotal).map
          (fun i => flat.getD (i * self.blkCount (data.length * 8) + j) false)
        = blocks.getD j [] := by
      intro j hj
      rw [List.mem_range] at hj
      have e2 : ∀ i ∈ List.range self.blkBitsTotal,
          flat.getD (i * self.blkCount (data.length * 8) + j) false
            = (blocks.getD j []).getD i false := by
        intro i hi
        exact hflatget i j (List.mem_range.mp hi) hj
      rw [List.map_congr_left e2]
      have hlenB : (blocks.getD j []).length = self.blkBitsTotal :=
        (hbprops _ (getD_mem_of_lt blocks j [] (by omega))).1
      rw [← hlenB]
      exact map_getD_range_len _ false
    rw [List.map_congr_left e1, ← hblen]
    exact map_getD_range_len blocks []
  have hcleanB : ∀ B ∈ blocks, ∀ idx, correctBlock self.blk_log_size idx B = Except.ok B := by
    intro B hB idx
    obtain ⟨hBl, hBg, hBx, _⟩ := hbprops B hB
    apply correctBlock_clean
    · apply syndromeOf_clean
      intro i hi
      unfold groupXor
      rw [hBl, Nat.one_shiftLeft]
      exact hBg i hi
    · exact hBx
  have hmapM : (blocks.enum.mapM
      (fun p => correctBlock self.blk_log_size p.1 p.2)) = Except.ok blocks :=
    mapM_correctBlock_clean self.blk_log_size blocks 0 hcleanB
  -- the declared length field
  have hlel : self.size_field_bits ≤ self.blkCount (data.length * 8) * self.blkBitsData := by
    omega
  have hL : bitsToNat (((List.range (self.blkCount (data.length * 8) * self.blkBitsData)).map
      (fun k => (self.encodeStream data).getD k false)).take self.size_field_bits)
      = data.length := by
    rw [← List.map_take, take_range_of_le _ _ hlel,
      map_getD_range_take _ false _ (by omega)]
    unfold HammingECC.encodeStream
    rw [List.take_left' (sizeFieldBits_length _ _), bitsToNat_sizeFieldBits]
    exact Nat.mod_eq_of_lt hlen
  have hrest : ((List.range (self.blkCount (data.length * 8) * self.blkBitsData)).map
      (fun k => (self.encodeStream data).getD k false)).drop self.size_field_bits
      = (List.range (self.blkCount (data.length * 8) * self.blkBitsData
          - self.size_field_bits)).map
        (fun k => (self.encodeStream data).getD (self.size_field_bits + k) false) := by
    rw [← List.map_drop, drop_range_of_le _ _ hlel, List.map_map]
    exact List.map_congr_left (fun k _ => rfl)
  have hrestlen : self.blkCount (data.length * 8) * self.blkBitsData
      - self.size_field_bits ≥ data.length * 8 := by
    omega
  have hbyte : ∀ k, k < data.length →
      bitsToNat ((((List.range (self.blkCount (data.length * 8) * self.blkBitsData
            - self.size_field_bits)).map
          (fun k' => (self.encodeStream data).getD (self.size_field_bits + k') false)).drop
            (8 * k)).take 8)
        = data.getD k 0 := by
    intro k hk
    have h8k : 8 * k + 8 ≤ self.blkCount (data.length * 8) * self.blkBitsData
        - self.size_field_bits := by omega
    rw [← List.map_drop, drop_range_of_le _ _ (by omega), ← List.map_take, ← List.map_take,
      take_range_of_le 8 _ (by omega), List.map_map]
    have e1 : ∀ r ∈ List.range 8,
        ((fun k' => (self.encodeStream data).getD (self.size_field_bits + k') false)
            ∘ (fun x => 8 * k + x)) r
          = (byteBits (data.getD k 0)).getD r false := by
      intro r hr
      rw [List.mem_range] at hr
      show (self.encodeStream data).getD (self.size_field_bits + (8 * k + r)) false
        = (byteBits (data.getD k 0)).getD r false
      unfold HammingECC.encodeStream
      rw [show self.size_field_bits + (8 * k + r)
          = (sizeFieldBits self.size_field_bits data.length).length + (8 * k + r) by
            rw [sizeFieldBits_length]]
      rw [getD_append_right']
      have hrows : ∀ row ∈ data.map byteBits, row.length = 8 := by
        intro row hrow
        obtain ⟨x, _, hx⟩ := List.mem_map.mp hrow
        rw [← hx, byteBits_length]
      have h2 := getD_flatten_uniform (data.map byteBits) 8 false hrows k r
        (by rw [List.length_map]; exact hk) hr
      rw [Nat.mul_comm k 8] at h2
      rw [h2, getD_map_list byteBits data k [] 0 hk]
    rw [List.map_congr_left e1]
    rw [show (8:Nat) = (byteBits (data.getD k 0)).length from (byteBits_length _).symm,
      map_getD_range_len]
    exact bitsToNat_byteBits _ (hbytes _ (getD_mem_of_lt data k 0 hk))
  -- now unfold the decoder
  unfold HammingECC.try_decrypt
  simp only [hbits]
  rw [if_neg (by rw [hflatlen]; simp [Nat.mul_mod_right])]
  rw [hflatlen, Nat.mul_div_cancel_left _ hNpos]
  rw [hblockseq, hmapM]
  have hbind : ∀ (f : List (List Bool) → Except DecodeError (List Nat)),
      (Except.ok blocks).bind f = f blocks := fun _ => rfl
  rw [hbind]
  simp only [hpayload, hL, hrest]
  rw [if_neg (by
    simp only [List.length_map, List.length_range]
    omega)]
  have hfinal : ∀ k ∈ List.range data.length,
      bitsToNat (List.take 8 (List.drop (8 * k)
        ((List.range (self.blkCount (data.length * 8) * self.blkBitsData
            - self.size_field_bits)).map
          (fun k' => (self.encodeStream data).getD (self.size_field_bits + k') false))))
        = data.getD k 0 := by
    intro k hk
    exact hbyte k (List.mem_range.mp hk)
  rw [List.map_congr_left hfinal, map_getD_range_len data 0]

/-! ### Vigenère helper -/

theorem zipWith_wrap_cancel :
    ∀ (m c : List Nat), (∀ x ∈ m, x < 256) → m.length ≤ c.length →
    List.zipWith (fun byte mask => (byte + 256 - mask % 256) % 256)
      (List.zipWith (fun byte mask => (byte + mask) % 256) m c) c = m := by
  intro m
  induction m with
  | nil => intro c _ _; simp
  | cons x xs ih =>
    intro c hm hlen
    match c with
    | [] => simp at hlen
    | y :: ys =>
      simp only [List.zipWith_cons_cons]
      have hx : x < 256 := hm x (by simp)
      have hhead : ((x + y) % 256 + 256 - y % 256) % 256 = x := by omega
      rw [hhead, ih ys (fun a ha => hm a (by simp [ha])) (by simpa using hlen)]

/-! ### Facts about the serialized output -/

theorem flat_facts (self : HammingECC) (blocks : List (List Bool)) (flat : List Bool)
    (count : Nat) (hb : 3 ≤ self.blk_log_size)
    (hblen : blocks.length = count)
    (hlenB : ∀ B ∈ blocks, B.length = self.blkBitsTotal)
    (hflatdef : flat = ((List.range self.blkBitsTotal).map
        (fun i => blocks.map (fun B => B.getD i false))).flatten) :
    flat.length = self.blkBitsTotal * count
    ∧ (∀ i j, i < self.blkBitsTotal → j < count →
        flat.getD (i * count + j) false = (blocks.getD j []).getD i false)
    ∧ (8:Nat) ∣ flat.length
    ∧ ((bitsToBytes flat).map byteBits).flatten = flat := by
  have hrowlen : ∀ r ∈ (List.range self.blkBitsTotal).map
      (fun i => blocks.map (fun B => B.getD i false)), r.length = blocks.length := by
    intro r hr
    obtain ⟨i, _, hi⟩ := List.mem_map.mp hr
    rw [← hi, List.length_map]
  have hflatlen : flat.length = self.blkBitsTotal * count := by
    rw [hflatdef, length_flatten_uniform _ blocks.length hrowlen, List.length_map,
      List.length_range, hblen]
  have hflatget : ∀ i j, i < self.blkBitsTotal → j < count →
      flat.getD (i * count + j) false = (blocks.getD j []).getD i false := by
    intro i j hi hj
    have h1 := getD_flatten_uniform _ blocks.length false hrowlen i j
      (by simpa using hi) (by rw [hblen]; exact hj)
    rw [hblen] at h1
    rw [hflatdef, h1, getD_map_range _ _ _ _ hi, getD_map_list _ blocks j false [] (by omega)]
  have h8flat : (8:Nat) ∣ flat.length := by
    rw [hflatlen, blkBitsTotal_eq]
    have h23 : (8:Nat) = 2 ^ 3 := rfl
    exact Dvd.dvd.mul_right (h23 ▸ pow_dvd_pow 2 hb) _
  exact ⟨hflatlen, hflatget, h8flat, flatten_byteBits_bitsToBytes flat h8flat⟩

/-! ### The claims -/

/-- C1 (amended): for every configuration with `3 ≤ block_log_size ≤ 63`
and `2 ≤ length_field_bits ≤ 63` — the accepted configurations whose
`usize` shifts fit a 64-bit word — and every message of fewer than
`2 ^ length_field_bits` bytes, decoding the encoded stream returns the
original message (`decode(encode(m)) = Ok(m)`); the empty message is the
instance `data = []`.  The claim as stated, over all accepted
configurations, fails at `(64, 2)`, where the encoder panics. -/
theorem C1_round_trip (b l : Nat) (data : List Nat) (hb : 3 ≤ b) (hb63 : b ≤ 63)
    (hl : 2 ≤ l) (hl63 : l ≤ 63)
    (hbytes : ∀ x ∈ data, x < 256) (hlen : data.length < 2 ^ l) :
    ∃ out, (HammingECC.mk b l).try_encrypt data = some (Except.ok out)
      ∧ (HammingECC.mk b l).try_decrypt out = Except.ok data :=
  hamming_round_trip ⟨b, l⟩ data hb hb63 hl hl63 hbytes hlen

/-- Counterexample to C1 as stated: the configuration
`(block_log_size, length_field_bits) = (64, 2)` is accepted by `new`, yet
the encoder panics on the empty message (checked build: shift-amount
overflow at `1usize << 64`; unchecked build: `reduce().unwrap()` on an
empty parity group after the masked shift), so `decode(encode([]))` is
not `Ok([])` there. -/
theorem C1_round_trip_counterexample :
    ¬ ∃ out, (HammingECC.mk 64 2).try_encrypt [] = some (Except.ok out)
      ∧ (HammingECC.mk 64 2).try_decrypt out = Except.ok [] := by
  intro ⟨out, hout, _⟩
  have h : (HammingECC.mk 64 2).try_encrypt [] = none := rfl
  rw [h] at hout
  exact Option.noConfusion hout

/-- Witness for C1 at the two concrete messages of the specification:
`[0b10010110, 0b00110110]` and `[]`, both with `block_log_size = 4` and
`length_field_bits = 3`. -/
theorem C1_round_trip_witness :
    (∃ out, (HammingECC.mk 4 3).try_encrypt [150, 54] = some (Except.ok out)
      ∧ (HammingECC.mk 4 3).try_decrypt out = Except.ok [150, 54])
    ∧ (∃ out, (HammingECC.mk 4 3).try_encrypt [] = some (Except.ok out)
      ∧ (HammingECC.mk 4 3).try_decrypt out = Except.ok []) :=
  ⟨C1_round_trip 4 3 [150, 54] (by decide) (by decide) (by decide) (by decide) (by decide)
      (by decide),
   C1_round_trip 4 3 [] (by decide) (by decide) (by decide) (by decide) (by decide)
      (by decide)⟩

/-- C2 (amended): for configurations with `3 ≤ block_log_size ≤ 63` and
`2 ≤ length_field_bits ≤ 63` — those whose `usize` shifts fit a 64-bit
word — `try_encrypt` returns an error exactly when the byte length is at
least `2 ^ length_field_bits`; the error carries the maximum allowed size
`2 ^ length_field_bits - 1` and the actual size; a message of exactly
`2 ^ length_field_bits - 1` bytes is accepted.  The claim as stated, over
every codec accepted by `new`, fails at `(64, 2)`, where a message at the
capacity boundary makes the encoder panic instead of being accepted. -/
theorem C2_size_check (b l : Nat) (data : List Nat) (hb : 3 ≤ b) (hb63 : b ≤ 63)
    (hl : 2 ≤ l) (hl63 : l ≤ 63) :
    ((∃ e, (HammingECC.mk b l).try_encrypt data = some (Except.error e))
        ↔ 2 ^ l ≤ data.length)
    ∧ (2 ^ l ≤ data.length →
        (HammingECC.mk b l).try_encrypt data
          = some (Except.error ⟨2 ^ l - 1, data.length⟩))
    ∧ (data.length = 2 ^ l - 1 →
        ∃ out, (HammingECC.mk b l).try_encrypt data = some (Except.ok out)) := by
  have herr : 2 ^ l ≤ data.length →
      (HammingECC.mk b l).try_encrypt data
        = some (Except.error ⟨2 ^ l - 1, data.length⟩) := by
    intro h
    unfold HammingECC.try_encrypt
    rw [if_neg (by show ¬(64 ≤ l); omega),
      if_pos (by rw [Nat.one_shiftLeft]; exact h), Nat.one_shiftLeft]
  have hok : data.length < 2 ^ l →
      ∃ out, (HammingECC.mk b l).try_encrypt data = some (Except.ok out) := by
    intro h
    obtain ⟨blocks, flat, _, _, _, _, _, henc, _⟩ :=
      try_encrypt_ok ⟨b, l⟩ data hb hb63 hl hl63 h
    exact ⟨bitsToBytes flat, henc⟩
  refine ⟨⟨?_, fun h => ⟨⟨2 ^ l - 1, data.length⟩, herr h⟩⟩, herr, ?_⟩
  · intro ⟨e, he⟩
    by_contra hlt
    obtain ⟨out, hout⟩ := hok (by omega)
    rw [hout] at he
    simp at he
  · intro h
    apply hok
    have h4 : (4:Nat) ≤ 2 ^ l := by
      calc (4:Nat) = 2 ^ 2 := rfl
      _ ≤ 2 ^ l := Nat.pow_le_pow_right (by omega) hl
    omega

/-- Witness for C2 at `block_log_size = 4`, `length_field_bits = 2` and the
three-byte message `[0, 0, 0]`, which sits exactly at the capacity
boundary `2 ^ 2 - 1`. -/
theorem C2_size_check_witness :
    ((∃ e, (HammingECC.mk 4 2).try_encrypt [0, 0, 0] = some (Except.error e))
        ↔ 2 ^ 2 ≤ ([0, 0, 0] : List Nat).length)
    ∧ (2 ^ 2 ≤ ([0, 0, 0] : List Nat).length →
        (HammingECC.mk 4 2).try_encrypt [0, 0, 0]
          = some (Except.error ⟨2 ^ 2 - 1, ([0, 0, 0] : List Nat).length⟩))
    ∧ (([0, 0, 0] : List Nat).length = 2 ^ 2 - 1 →
        ∃ out, (HammingECC.mk 4 2).try_encrypt [0, 0, 0] = some (Except.ok out)) :=
  C2_size_check 4 2 [0, 0, 0] (by decide) (by decide) (by decide) (by decide)

/-- Counterexample to C2 as stated: the codec `(64, 2)` is accepted by
`new` and `[0, 0, 0]` sits exactly at the capacity boundary
`2 ^ 2 - 1 = 3`, yet the encoder panics on it instead of accepting it
(checked build: shift-amount overflow at `1usize << 64`; unchecked build:
`reduce().unwrap()` on an empty parity group after the masked shift). -/
theorem C2_size_check_counterexample :
    ([0, 0, 0] : List Nat).length = 2 ^ 2 - 1
    ∧ ¬ ∃ out, (HammingECC.mk 64 2).try_encrypt [0, 0, 0] = some (Except.ok out) := by
  refine ⟨rfl, ?_⟩
  intro ⟨out, hout⟩
  have h : (HammingECC.mk 64 2).try_encrypt [0, 0, 0] = none := rfl
  rw [h] at hout
  exact Option.noConfusion hout

/-- C3: the two concrete vectors of the specification: with
`block_log_size = 4` and `length_field_bits = 3`, the bytes
`[0b10010110, 0b00110110]` encode to
`[0b10001000, 0b00100111, 0b10000111, 0b00101000]`, and `[]` encodes to
`[0b00000000, 0b00000000]`. -/
theorem C3_concrete_vectors :
    (HammingECC.mk 4 3).try_encrypt [0b10010110, 0b00110110]
        = some (Except.ok [0b10001000, 0b00100111, 0b10000111, 0b00101000])
    ∧ (HammingECC.mk 4 3).try_encrypt ([] : List Nat)
        = some (Except.ok [0b00000000, 0b00000000]) :=
  ⟨rfl, rfl⟩

/-- C4 (amended): for configurations with `3 ≤ block_log_size ≤ 63` and
`2 ≤ length_field_bits ≤ 63` — those whose `usize` shifts fit a 64-bit
word, so that blocks are actually produced — in every block produced by
`try_encrypt`, the bit at each power-of-two position
`p < block_bits_total` equals the XOR of all bits at positions `q` with
`q &&& p = p`, computed with position `p` itself counted as zero, and the
bit at position 0 equals the XOR of all `2 ^ block_log_size` bits (the
power-of-two parity bits included) with position 0 itself counted as zero
— uniformly, the `p = 0` instance of the same group equation, since every
position `q` satisfies `q &&& 0 = 0`.  Over all accepted configurations
the claim fails at `(64, 2)`: the encoder panics mid-block and produces
no blocks at all. -/
theorem C4_parity_equations (b l : Nat) (data : List Nat)
    (hb : 3 ≤ b) (hb63 : b ≤ 63) (hl : 2 ≤ l) (hl63 : l ≤ 63)
    (hlen : data.length < 2 ^ l) :
    ∃ blocks,
      buildBlocks b (HammingECC.mk b l).blkBitsTotal (HammingECC.mk b l).blkBitsData
          ((HammingECC.mk b l).blkCount (data.length * 8))
          ((HammingECC.mk b l).encodeStream data) = some blocks
      ∧ ∀ B ∈ blocks, ∀ p,
          (p = 0 ∨ (∃ i, p = 2 ^ i ∧ p < (HammingECC.mk b l).blkBitsTotal)) →
          B.getD p false = xorFold ((eccPositions (HammingECC.mk b l).blkBitsTotal p).map
            (fun q => if q = p then false else B.getD q false)) := by
  obtain ⟨blocks, flat, hblocks, _, hbprops, _, _, _, _⟩ :=
    try_encrypt_ok ⟨b, l⟩ data hb hb63 hl hl63 hlen
  refine ⟨blocks, hblocks, ?_⟩
  intro B hB p hp
  obtain ⟨_, _, _, hmod⟩ := hbprops B hB
  apply hmod
  rcases hp with h0 | ⟨i, hpi, hplt⟩
  · exact Or.inl h0
  · refine Or.inr ⟨i, ?_, hpi⟩
    rw [hpi, blkBitsTotal_eq] at hplt
    exact (Nat.pow_lt_pow_iff_right (by omega)).mp hplt

/-- Witness for C4 at `block_log_size = 4`, `length_field_bits = 3` and the
message `[150, 54]`. -/
theorem C4_parity_equations_witness :
    ∃ blocks,
      buildBlocks 4 (HammingECC.mk 4 3).blkBitsTotal (HammingECC.mk 4 3).blkBitsData
          ((HammingECC.mk 4 3).blkCount (([150, 54] : List Nat).length * 8))
          ((HammingECC.mk 4 3).encodeStream [150, 54]) = some blocks
      ∧ ∀ B ∈ blocks, ∀ p,
          (p = 0 ∨ (∃ i, p = 2 ^ i ∧ p < (HammingECC.mk 4 3).blkBitsTotal)) →
          B.getD p false = xorFold ((eccPositions (HammingECC.mk 4 3).blkBitsTotal p).map
            (fun q => if q = p then false else B.getD q false)) :=
  C4_parity_equations 4 3 [150, 54] (by decide) (by decide) (by decide) (by decide)
    (by decide)

/-- Counterexample to C4 as stated: at the accepted configuration
`(64, 2)` the encoder panics before finishing a single block (checked
build: shift-amount overflow at `1usize << 64`; unchecked build: the
masked shift makes the block one bit wide and the first parity `reduce`
hits an empty group and its `unwrap` panics), so `try_encrypt` produces
no blocks whose parity bits the claim could speak about. -/
theorem C4_parity_equations_counterexample :
    (HammingECC.mk 64 2).try_encrypt [] = none := rfl

/-- C5 (amended): for configurations with `3 ≤ block_log_size ≤ 63` and
`2 ≤ length_field_bits ≤ 63` — those whose `usize` shifts fit a 64-bit
word — the bit sequence produced by `try_encrypt` is position-major
interleaved — bit `i` of block `j` sits at flat position
`i * block_count + j` — and the flat sequence is packed into the output
bytes most-significant-bit first (unpacking the output bytes MSB-first
gives back exactly the flat sequence; its length is a multiple of 8, so
the zero padding of a final partial byte is empty here).  Over all
accepted configurations the claim fails at `(64, 2)`, where the encoder
panics and no output exists. -/
theorem C5_interleaved_layout (b l : Nat) (data : List Nat)
    (hb : 3 ≤ b) (hb63 : b ≤ 63) (hl : 2 ≤ l) (hl63 : l ≤ 63)
    (hlen : data.length < 2 ^ l) :
    ∃ blocks flat,
      buildBlocks b (HammingECC.mk b l).blkBitsTotal (HammingECC.mk b l).blkBitsData
          ((HammingECC.mk b l).blkCount (data.length * 8))
          ((HammingECC.mk b l).encodeStream data) = some blocks
      ∧ interleave (HammingECC.mk b l).blkBitsTotal blocks = some flat
      ∧ (HammingECC.mk b l).try_encrypt data = some (Except.ok (bitsToBytes flat))
      ∧ flat.length = (HammingECC.mk b l).blkBitsTotal
          * (HammingECC.mk b l).blkCount (data.length * 8)
      ∧ (∀ i j, i < (HammingECC.mk b l).blkBitsTotal →
          j < (HammingECC.mk b l).blkCount (data.length * 8) →
          flat.getD (i * (HammingECC.mk b l).blkCount (data.length * 8) + j) false
            = (blocks.getD j []).getD i false)
      ∧ (8:Nat) ∣ flat.length
      ∧ ((bitsToBytes flat).map byteBits).flatten = flat := by
  obtain ⟨blocks, flat, hblocks, hblen, hbprops, hflatcall, hflatdef, henc, _⟩ :=
    try_encrypt_ok ⟨b, l⟩ data hb hb63 hl hl63 hlen
  obtain ⟨h1, h2, h3, h4⟩ := flat_facts ⟨b, l⟩ blocks flat
    ((HammingECC.mk b l).blkCount (data.length * 8)) hb hblen
    (fun B hB => (hbprops B hB).1) hflatdef
  exact ⟨blocks, flat, hblocks, hflatcall, henc, h1, h2, h3, h4⟩

/-- Witness for C5 at `block_log_size = 4`, `length_field_bits = 3` and the
message `[150, 54]`. -/
theorem C5_interleaved_layout_witness :
    ∃ blocks flat,
      buildBlocks 4 (HammingECC.mk 4 3).blkBitsTotal (HammingECC.mk 4 3).blkBitsData
          ((HammingECC.mk 4 3).blkCount (([150, 54] : List Nat).length * 8))
          ((HammingECC.mk 4 3).encodeStream [150, 54]) = some blocks
      ∧ interleave (HammingECC.mk 4 3).blkBitsTotal blocks = some flat
      ∧ (HammingECC.mk 4 3).try_encrypt [150, 54] = some (Except.ok (bitsToBytes flat))
      ∧ flat.length = (HammingECC.mk 4 3).blkBitsTotal
          * (HammingECC.mk 4 3).blkCount (([150, 54] : List Nat).length * 8)
      ∧ (∀ i j, i < (HammingECC.mk 4 3).blkBitsTotal →
          j < (HammingECC.mk 4 3).blkCount (([150, 54] : List Nat).length * 8) →
          flat.getD (i * (HammingECC.mk 4 3).blkCount (([150, 54] : List Nat).length * 8) + j)
              false
            = (blocks.getD j []).getD i false)
      ∧ (8:Nat) ∣ flat.length
      ∧ ((bitsToBytes flat).map byteBits).flatten = flat :=
  C5_interleaved_layout 4 3 [150, 54] (by decide) (by decide) (by decide) (by decide)
    (by decide)

/-- Counterexample to C5 as stated: at the accepted configuration
`(64, 2)` the encoder panics on every input (checked build: shift-amount
overflow at `1usize << 64`; unchecked build: `unwrap` of an empty parity
reduce after the masked shift), so no interleaved, byte-packed output
exists for the empty message. -/
theorem C5_interleaved_layout_counterexample :
    ¬ ∃ out, (HammingECC.mk 64 2).try_encrypt [] = some (Except.ok out) := by
  intro ⟨out, hout⟩
  have h : (HammingECC.mk 64 2).try_encrypt [] = none := rfl
  rw [h] at hout
  exact Option.noConfusion hout

/-- C6 (amended): for configurations with `3 ≤ block_log_size ≤ 63` and
`2 ≤ length_field_bits ≤ 63` — those whose `usize` shifts fit a 64-bit
word, so that the build actually runs — the number of blocks built by
`try_encrypt` equals
`ceil((len(message)*8 + length_field_bits) / block_bits_data)` where
`block_bits_data = 2 ^ block_log_size - (block_log_size + 1)` — stated by
the exact ceiling characterization `x ≤ count*d < x + d` — and the count
is at least 1 even for an empty message.  Over all accepted
configurations the claim fails at `(64, 2)`, where the encoder panics
before building any block. -/
theorem C6_block_count (b l : Nat) (data : List Nat)
    (hb : 3 ≤ b) (hb63 : b ≤ 63) (hl : 2 ≤ l) (hl63 : l ≤ 63)
    (hlen : data.length < 2 ^ l) :
    ∃ blocks,
      buildBlocks b (HammingECC.mk b l).blkBitsTotal (HammingECC.mk b l).blkBitsData
          ((HammingECC.mk b l).blkCount (data.length * 8))
          ((HammingECC.mk b l).encodeStream data) = some blocks
      ∧ blocks.length = (HammingECC.mk b l).blkCount (data.length * 8)
      ∧ (HammingECC.mk b l).blkBitsData = 2 ^ b - (b + 1)
      ∧ data.length * 8 + l
          ≤ (HammingECC.mk b l).blkCount (data.length * 8)
            * (HammingECC.mk b l).blkBitsData
      ∧ (HammingECC.mk b l).blkCount (data.length * 8) * (HammingECC.mk b l).blkBitsData
          < data.length * 8 + l + (HammingECC.mk b l).blkBitsData
      ∧ 1 ≤ (HammingECC.mk b l).blkCount (data.length * 8) := by
  obtain ⟨blocks, flat, hblocks, hblen, _, _, _, _, _⟩ :=
    try_encrypt_ok ⟨b, l⟩ data hb hb63 hl hl63 hlen
  have hd : (HammingECC.mk b l).blkBitsData = 2 ^ b - (b + 1) := by
    unfold HammingECC.blkBitsData HammingECC.blkBitsEcc
    rw [blkBitsTotal_eq]
    show 2 ^ b - (1 + b) = 2 ^ b - (b + 1)
    omega
  have hceil := ceil_div_bounds (data.length * 8 + l) (HammingECC.mk b l).blkBitsData
    (blkBitsData_pos _ hb) (by omega)
  have hc : (HammingECC.mk b l).blkCount (data.length * 8)
      = (data.length * 8 + l + (HammingECC.mk b l).blkBitsData - 1)
        / (HammingECC.mk b l).blkBitsData := rfl
  rw [hc]
  exact ⟨blocks, hblocks, by rw [← hc]; exact hblen, hd, hceil.1, hceil.2.1, hceil.2.2⟩

/-- Witness for C6 at `block_log_size = 4`, `length_field_bits = 3` and the
empty message, where the count is still 1. -/
theorem C6_block_count_witness :
    ∃ blocks,
      buildBlocks 4 (HammingECC.mk 4 3).blkBitsTotal (HammingECC.mk 4 3).blkBitsData
          ((HammingECC.mk 4 3).blkCount (([] : List Nat).length * 8))
          ((HammingECC.mk 4 3).encodeStream []) = some blocks
      ∧ blocks.length = (HammingECC.mk 4 3).blkCount (([] : List Nat).length * 8)
      ∧ (HammingECC.mk 4 3).blkBitsData = 2 ^ 4 - (4 + 1)
      ∧ ([] : List Nat).length * 8 + 3
          ≤ (HammingECC.mk 4 3).blkCount (([] : List Nat).length * 8)
            * (HammingECC.mk 4 3).blkBitsData
      ∧ (HammingECC.mk 4 3).blkCount (([] : List Nat).length * 8)
            * (HammingECC.mk 4 3).blkBitsData
          < ([] : List Nat).length * 8 + 3 + (HammingECC.mk 4 3).blkBitsData
      ∧ 1 ≤ (HammingECC.mk 4 3).blkCount (([] : List Nat).length * 8) :=
  C6_block_count 4 3 [] (by decide) (by decide) (by decide) (by decide) (by decide)

/-- Counterexample to C6 as stated: at the accepted configuration
`(64, 2)` no block is ever built for the one-byte message `[37]` — the
encoder panics first (checked build: shift-amount overflow at
`1usize << 64`; unchecked build: the wrapped `blk_bits_data` and
one-bit block make the parity loop `unwrap` an empty reduce) — so the
block count of the program there is not the claimed ceiling `≥ 1`. -/
theorem C6_block_count_counterexample :
    (HammingECC.mk 64 2).try_encrypt [37] = none := rfl

/-- C7: `HammingECC::new` returns `Some` exactly when
`block_log_size ≥ 3` and `length_field_bits ≥ 2`, and `None` otherwise. -/
theorem C7_new_validation (blk_log_size size_field_bits : Nat) :
    ((∃ c, HammingECC.new blk_log_size size_field_bits = some c)
        ↔ (3 ≤ blk_log_size ∧ 2 ≤ size_field_bits))
    ∧ (¬(3 ≤ blk_log_size ∧ 2 ≤ size_field_bits) →
        HammingECC.new blk_log_size size_field_bits = none) := by
  by_cases h : 3 ≤ blk_log_size ∧ 2 ≤ size_field_bits
  · refine ⟨⟨fun _ => h, fun _ => ⟨⟨blk_log_size, size_field_bits⟩, ?_⟩⟩,
      fun hc => absurd h hc⟩
    unfold HammingECC.new
    rw [decide_eq_true h]
  · constructor
    · constructor
      · intro ⟨c, hc⟩
        exfalso
        unfold HammingECC.new at hc
        rw [decide_eq_false h] at hc
        exact Option.noConfusion hc
      · intro hvalid
        exact absurd hvalid h
    · intro _
      unfold HammingECC.new
      rw [decide_eq_false h]

/-- C8 (amended): for every configuration accepted by `new` whose shifts
fit a 64-bit `usize` (`3 ≤ block_log_size ≤ 63` and
`2 ≤ length_field_bits ≤ 63`) and every finite input, `try_encrypt`
terminates without panicking: the result is `some` (either `Ok` or
`Err`), never the `none` that models a panic.  The claim as stated — up
to 255 for each parameter — fails for `block_log_size ≥ 64`, where the
program panics on every input after construction. -/
theorem C8_no_panic (b l : Nat) (data : List Nat)
    (hb3 : 3 ≤ b) (hb63 : b ≤ 63) (hl2 : 2 ≤ l) (hl63 : l ≤ 63) :
    ∃ r, (HammingECC.mk b l).try_encrypt data = some r := by
  rcases Nat.lt_or_ge data.length (2 ^ l) with hlt | hge
  · obtain ⟨blocks, flat, _, _, _, _, _, henc, _⟩ :=
      try_encrypt_ok ⟨b, l⟩ data hb3 hb63 hl2 hl63 hlt
    exact ⟨Except.ok (bitsToBytes flat), henc⟩
  · refine ⟨Except.error ⟨2 ^ l - 1, data.length⟩, ?_⟩
    unfold HammingECC.try_encrypt
    rw [if_neg (by show ¬(64 ≤ l); omega),
      if_pos (by rw [Nat.one_shiftLeft]; exact hge), Nat.one_shiftLeft]

/-- Witness for C8 at the largest allowed configuration parameters applied
to a small message, and at an ordinary configuration. -/
theorem C8_no_panic_witness :
    (∃ r, (HammingECC.mk 4 3).try_encrypt [1, 2, 3] = some r)
    ∧ (∃ r, (HammingECC.mk 3 2).try_encrypt [9, 9, 9, 9] = some r) :=
  ⟨C8_no_panic 4 3 [1, 2, 3] (by decide) (by decide) (by decide) (by decide),
   C8_no_panic 3 2 [9, 9, 9, 9] (by decide) (by decide) (by decide) (by decide)⟩

/-- Counterexample to C8 as stated: the configuration `(64, 2)` is inside
the claimed parameter range (each up to 255) and accepted by `new`, yet
`try_encrypt` panics on the in-range message `[1, 2, 3]` — in a checked
build at the shift `1usize << 64` ("attempt to shift left with
overflow"), in an unchecked build at the `reduce().unwrap()` of the empty
parity group that the masked one-bit block leaves — so it returns neither
`Ok` nor `Err`. -/
theorem C8_no_panic_counterexample :
    ¬ ∃ r, (HammingECC.mk 64 2).try_encrypt [1, 2, 3] = some r := by
  intro ⟨r, hr⟩
  have h : (HammingECC.mk 64 2).try_encrypt [1, 2, 3] = none := rfl
  rw [h] at hr
  exact Option.noConfusion hr

/-- C9 (code bug): `Key::random(key_len, rng)` is documented and specified
to return a key of length `key_len`, but the implementation builds the
byte vector with `Vec::with_capacity` (length 0), so `fill` and
`fill_bytes` act on an empty slice and the returned key is empty: at
`key_len = 1` the length is 0, not 1, violating the non-emptiness
invariant that `Key::new` and `from_iter` enforce. -/
theorem C9_key_random_empty :
    (Key.random 1 (fun _ => 0)).len = 0
    ∧ (Key.random 1 (fun _ => 0)).len ≠ 1
    ∧ Key.new [] = none := by
  refine ⟨rfl, by decide, rfl⟩

/-- C10: for every non-empty key and every byte sequence, the Vigenère
decryption of the encryption returns the original sequence — encryption
adds the cycled key bytes with wrapping (mod-256) addition, decryption
subtracts them with wrapping subtraction. -/
theorem C10_vigener_round_trip (key m : List Nat) (hkey : key ≠ [])
    (hm : ∀ x ∈ m, x < 256) :
    (Vigener.new ⟨key⟩).decrypt ((Vigener.new ⟨key⟩).encrypt m) = m := by
  unfold Vigener.new Vigener.decrypt Vigener.encrypt
  have hlen : (List.zipWith (fun byte mask => (byte + mask) % 256) m
      (cycleTake key m.length)).length = m.length := by
    simp [List.length_zipWith, cycleTake]
  rw [hlen]
  exact zipWith_wrap_cancel m (cycleTake key m.length) hm (by simp [cycleTake])

/-- Witness for C10 at the key `[1, 255, 3]` and the message
`[10, 20, 30, 40, 250]`. -/
theorem C10_vigener_round_trip_witness :
    (Vigener.new ⟨[1, 255, 3]⟩).decrypt
        ((Vigener.new ⟨[1, 255, 3]⟩).encrypt [10, 20, 30, 40, 250])
      = [10, 20, 30, 40, 250] :=
  C10_vigener_round_trip [1, 255, 3] [10, 20, 30, 40, 250] (by decide) (by decide)
